import Mathlib

/-!
Verification of the `text-blind-watermark-js` repository.

The development embeds the two steganographic codecs of the repository:

* the zero-width-character text watermarker of `src/index.ts`
  (`TextBlindWatermark`: `addWatermarkRandom`, `extract`, `removeWatermark`,
  with the `hex`, `binary`, `base4` and `base8` encodings), and
* the LSB image steganography codec of `src/text-blind-watermark.ts`
  (`ImageSteganography`: `getMaxCapacity`, `hideData`, `extractData`).

Modelling conventions:

* JS strings are modelled by `String`/`List Char`; `Array.from(s)` iterates
  Unicode code points, which matches `String.data`.
* Bytes are `Nat` (all byte values produced by the code are `< 256`).
* JS binary-digit strings (`"0"`/`"1"` characters) are modelled by `List Bool`.
* Bitwise ops on bytes are rendered with division/modulus: `x >> 6` is
  `x / 64`, `x & 0x3f` is `x % 64`, `0x80 | y` (for `y < 64`) is `128 + y`.
* JS `parseInt(s, 2)` on a non-empty binary string is `parseBin`; the NaN
  result on an empty string is noted where relevant.
* The pseudo-random placement loop of the text codec can in principle spin
  forever (it rejects repeated positions drawn from a period-233280 LCG), so
  it is given explicit fuel and returns `Option`.
* `Math.floor` over possibly-negative JS division is `Int.fdiv`.
-/

/-! ## Bit and byte utilities shared by both codecs -/

/-- One step of `parseInt(str, 2)`: accumulate a binary digit. -/
def parseBinStep (a : Nat) (b : Bool) : Nat := 2 * a + (if b then 1 else 0)

/-- Models JS `parseInt(str, 2)` on a string of '0'/'1' characters.
JS returns NaN on the empty string; every use in the verified code paths
supplies a non-empty string (noted at each call site). -/
def parseBin (bits : List Bool) : Nat := bits.foldl parseBinStep 0

/-- Minimal big-endian binary digits of `n`, as produced by
`n.toString(2)`; fuel 64 covers every JS safe integer (< 2^53). -/
def natToBinAux : Nat → Nat → List Bool
  | 0, _ => []
  | fuel + 1, n => if n = 0 then [] else natToBinAux fuel (n / 2) ++ [n % 2 == 1]

/-- Models `n.toString(2)` for a natural number: `"0"` for zero, otherwise
the minimal big-endian binary digit string. -/
def natToBin (n : Nat) : List Bool := if n = 0 then [false] else natToBinAux 64 n

/-- Models `str.padStart(width, '0')` on a binary digit string. -/
def padStartB (width : Nat) (bits : List Bool) : List Bool :=
  List.replicate (width - bits.length) false ++ bits

/-- Models `byte.toString(2).padStart(8, '0')` (exactly 8 digits for
`byte < 256`). -/
def byteToBits8 (b : Nat) : List Bool := padStartB 8 (natToBin b)

/-- Models the byte-chunking loop of `binaryToString`/`bitStringToBytes`:
consume the bit string 8 bits at a time, dropping a trailing partial byte. -/
def bitsToBytes : List Bool → List Nat
  | b0 :: b1 :: b2 :: b3 :: b4 :: b5 :: b6 :: b7 :: rest =>
      parseBin [b0, b1, b2, b3, b4, b5, b6, b7] :: bitsToBytes rest
  | _ => []

/-- The sixteen lowercase hex digit characters. -/
def hexChars : List Char :=
  ['0', '1', '2', '3', '4', '5', '6', '7'] ++
    ['8', '9', 'a', 'b', 'c', 'd', 'e', 'f']

/-- Lowercase hex digit for `n < 16`, as produced by `byte.toString(16)`. -/
def hexDigitChar (n : Nat) : Char := hexChars.getD (n % 16) '0'

/-- Numeric value of a hex digit character (upper or lower case), as
`parseInt(c, 16)` computes it; unrecognized characters give 0 (the verified
call sites only pass hex digits). -/
def hexDigitVal (c : Char) : Nat :=
  if '0' ≤ c ∧ c ≤ '9' then c.toNat - '0'.toNat
  else if 'a' ≤ c ∧ c ≤ 'f' then c.toNat - 'a'.toNat + 10
  else if 'A' ≤ c ∧ c ≤ 'F' then c.toNat - 'A'.toNat + 10
  else 0

/-! ## UTF-8 (models `TextEncoder`/`TextDecoder` and the pure-JS fallbacks
`utf8Encode`/`utf8Decode` of `src/index.ts`) -/

/-- UTF-8 encoding of one Unicode scalar value, as in `utf8Encode`
(`src/index.ts`) and `TextEncoder`: shifts and masks written as `/`, `%`,
and the `0xc0/0xe0/0xf0/0x80` tags as additions (the tag bits and the
payload bits do not overlap). -/
def encodeCodePoint (v : Nat) : List Nat :=
  if v ≤ 0x7f then [v]
  else if v ≤ 0x7ff then [192 + v / 64, 128 + v % 64]
  else if v ≤ 0xffff then [224 + v / 4096, 128 + v / 64 % 64, 128 + v % 64]
  else [240 + v / 262144, 128 + v / 4096 % 64, 128 + v / 64 % 64, 128 + v % 64]

/-- UTF-8 bytes of a character. -/
def utf8EncodeChar (c : Char) : List Nat := encodeCodePoint c.toNat

/-- Models `new TextEncoder().encode(str)` (and `stringToBytes`): the UTF-8
bytes of the string. -/
def utf8Bytes (s : String) : List Nat := s.data.flatMap utf8EncodeChar

/-- UTF-8 decoding, one leading byte at a time, modelling
`new TextDecoder('utf-8').decode` as implemented by the repository's own
fallback `utf8Decode` (`src/index.ts`): the byte class is read off the high
bits of the first byte, missing continuation bytes read as 0 (JS
`undefined & 0x3f`), and an illegal leading byte yields U+FFFD. Code points
are represented directly as `Char` (the JS source emits the equivalent
UTF-16 units); values that are not Unicode scalar values can only arise
from invalid input, which the verified paths never produce. The fuel is the
number of remaining bytes (each step consumes at least one byte). -/
def utf8DecodeAux : Nat → List Nat → List Char
  | 0, _ => []
  | _, [] => []
  | fuel + 1, b1 :: rest =>
    if b1 < 0x80 then
      Char.ofNat b1 :: utf8DecodeAux fuel rest
    else if b1 / 32 = 6 then
      Char.ofNat ((b1 % 32) * 64 + (rest.headD 0) % 64) :: utf8DecodeAux fuel rest.tail
    else if b1 / 16 = 14 then
      Char.ofNat ((b1 % 16) * 4096 + ((rest.headD 0) % 64) * 64 + ((rest.tail).headD 0) % 64) ::
        utf8DecodeAux fuel rest.tail.tail
    else if b1 / 8 = 30 then
      Char.ofNat ((b1 % 8) * 262144 + ((rest.headD 0) % 64) * 4096 +
          (((rest.tail).headD 0) % 64) * 64 + ((rest.tail.tail).headD 0) % 64) ::
        utf8DecodeAux fuel rest.tail.tail.tail
    else
      Char.ofNat 0xFFFD :: utf8DecodeAux fuel rest

/-- UTF-8 decoding of a byte list to a string. -/
def utf8DecodeBytes (bytes : List Nat) : String :=
  String.mk (utf8DecodeAux bytes.length bytes)

/-! ## XOR obfuscation (`xorCrypt` of `src/index.ts`) -/

/-- Models `xorCrypt(data, key)`: XOR each byte with the cycled key.
`key[i % key.length]` for an empty key is JS `key[NaN] = undefined`, and
`byte ^ undefined` is `byte ^ 0`. -/
def xorCrypt (data key : List Nat) : List Nat :=
  data.mapIdx fun i d => d ^^^ (if key.length = 0 then 0 else key.getD (i % key.length) 0)

/-! ## Zero-width character alphabets (`src/index.ts`) -/

/-- `ZERO_WIDTH_CHARS` of `src/index.ts`: hex digit (uppercase key) to
zero-width code point. -/
def zwOfHexUpper : Char → Option Char
  | '0' => some '\u200B'
  | '1' => some '\u2060'
  | '2' => some '\u2061'
  | '3' => some '\u2062'
  | '4' => some '\u2063'
  | '5' => some '\u2064'
  | '6' => some '\uFEFF'
  | '7' => some '\u200C'
  | '8' => some '\u200D'
  | '9' => some '\u180B'
  | 'A' => some '\u180C'
  | 'B' => some '\u180D'
  | 'C' => some '\uFE00'
  | 'D' => some '\uFE01'
  | 'E' => some '\uFE02'
  | 'F' => some '\uFE03'
  | _ => none

/-- `CHAR_TO_HEX` of `src/index.ts`: the reverse map, producing the
uppercase hex digit keys of `ZERO_WIDTH_CHARS`. -/
def charToHex : Char → Option Char
  | '\u200B' => some '0'
  | '\u2060' => some '1'
  | '\u2061' => some '2'
  | '\u2062' => some '3'
  | '\u2063' => some '4'
  | '\u2064' => some '5'
  | '\uFEFF' => some '6'
  | '\u200C' => some '7'
  | '\u200D' => some '8'
  | '\u180B' => some '9'
  | '\u180C' => some 'A'
  | '\u180D' => some 'B'
  | '\uFE00' => some 'C'
  | '\uFE01' => some 'D'
  | '\uFE02' => some 'E'
  | '\uFE03' => some 'F'
  | _ => none

/-- `BINARY_ZERO_WIDTH_CHARS`: bit to mobile-safe zero-width character. -/
def binaryZwChar (b : Bool) : Char := if b then '\u200C' else '\u200B'

/-- `BINARY_CHAR_TO_BIT`: reverse map of the binary alphabet. -/
def binaryCharToBit : Char → Option Bool
  | '\u200B' => some false
  | '\u200C' => some true
  | _ => none

/-- `BASE4_ZERO_WIDTH_CHARS`: 2-bit index (0..3) to zero-width character. -/
def base4Char : Nat → Char
  | 0 => '\u200B'
  | 1 => '\u2060'
  | 2 => '\u2062'
  | _ => '\u2063'

/-- `BASE4_CHAR_TO_BITS`: reverse map of the base4 alphabet, two bits per
character. -/
def base4CharToBits : Char → Option (List Bool)
  | '\u200B' => some [false, false]
  | '\u2060' => some [false, true]
  | '\u2062' => some [true, false]
  | '\u2063' => some [true, true]
  | _ => none

/-- `BASE8_ZERO_WIDTH_CHARS`: 3-bit index (0..7) to zero-width character. -/
def base8Char : Nat → Char
  | 0 => '\u200B'
  | 1 => '\u2060'
  | 2 => '\u2061'
  | 3 => '\u2062'
  | 4 => '\u2063'
  | 5 => '\u2064'
  | 6 => '\uFEFF'
  | _ => '\u200C'

/-- `BASE8_CHAR_TO_BITS`: reverse map of the base8 alphabet, three bits per
character. -/
def base8CharToBits : Char → Option (List Bool)
  | '\u200B' => some [false, false, false]
  | '\u2060' => some [false, false, true]
  | '\u2061' => some [false, true, false]
  | '\u2062' => some [false, true, true]
  | '\u2063' => some [true, false, false]
  | '\u2064' => some [true, false, true]
  | '\uFEFF' => some [true, true, false]
  | '\u200C' => some [true, true, true]
  | _ => none

/-- The combined list of recognized zero-width characters built inside
`extractZeroWidthChars`/`removeWatermark` (`src/index.ts`): the values of
all four alphabets, in source order (duplicates kept, as in the source;
only membership matters). -/
def allZeroWidthChars : List Char :=
  ['\u200B', '\u2060', '\u2061', '\u2062', '\u2063', '\u2064', '\uFEFF', '\u200C',
   '\u200D', '\u180B', '\u180C', '\u180D', '\uFE00', '\uFE01', '\uFE02', '\uFE03'] ++
  ['\u200B', '\u200C'] ++
  ['\u200B', '\u2060', '\u2062', '\u2063'] ++
  ['\u200B', '\u2060', '\u2061', '\u2062', '\u2063', '\u2064', '\uFEFF', '\u200C']

/-- Membership test `zeroWidthChars.includes(char)`. -/
def isZeroWidth (c : Char) : Bool := allZeroWidthChars.contains c

/-! ## Serializers of the text codec (`src/index.ts`) -/

/-- `bytesToHex`: each byte as two lowercase hex digits
(`byte.toString(16).padStart(2, '0')`, exact for bytes `< 256`). -/
def bytesToHex (bytes : List Nat) : List Char :=
  bytes.flatMap fun b => [hexDigitChar (b / 16), hexDigitChar (b % 16)]

/-- `hexToBytes`: parse hex digit pairs (`parseInt(hex.substr(i, 2), 16)`).
Callers guarantee an even length (checked before this runs). -/
def hexToBytes : List Char → List Nat
  | c1 :: c2 :: rest => (hexDigitVal c1 * 16 + hexDigitVal c2) :: hexToBytes rest
  | _ => []

/-- `encodeToZeroWidth`: uppercase each hex digit, map through
`ZERO_WIDTH_CHARS`, drop unmapped characters (`return ''`). -/
def encodeToZeroWidth (hex : List Char) : List Char :=
  hex.filterMap fun c => zwOfHexUpper c.toUpper

/-- `decodeFromZeroWidth`: map each character through `CHAR_TO_HEX`,
dropping unmapped characters. -/
def decodeFromZeroWidth (zw : List Char) : List Char :=
  zw.filterMap charToHex

/-- `bytesToBitString`: all bytes as 8-bit groups. -/
def bytesToBitString (bytes : List Nat) : List Bool :=
  bytes.flatMap byteToBits8

/-- `encodeBitsToZeroWidth` (binary mode): one character per bit. -/
def encodeBitsToZeroWidth (bits : List Bool) : List Char :=
  bits.map binaryZwChar

/-- `encodeBitsToZeroWidthBase4`: characters for 2-bit groups; a trailing
single bit is padded with a zero bit (`pair.padEnd(2, '0')`). -/
def encodeBitsToZeroWidthBase4 : List Bool → List Char
  | [] => []
  | [b0] => [base4Char (2 * (if b0 then 1 else 0))]
  | b0 :: b1 :: rest =>
      base4Char (2 * (if b0 then 1 else 0) + (if b1 then 1 else 0)) ::
        encodeBitsToZeroWidthBase4 rest

/-- `encodeBitsToZeroWidthBase8`: characters for 3-bit groups; a trailing
partial group is padded with zero bits (`triplet.padEnd(3, '0')`). -/
def encodeBitsToZeroWidthBase8 : List Bool → List Char
  | [] => []
  | [b0] => [base8Char (4 * (if b0 then 1 else 0))]
  | [b0, b1] => [base8Char (4 * (if b0 then 1 else 0) + 2 * (if b1 then 1 else 0))]
  | b0 :: b1 :: b2 :: rest =>
      base8Char (4 * (if b0 then 1 else 0) + 2 * (if b1 then 1 else 0) +
          (if b2 then 1 else 0)) ::
        encodeBitsToZeroWidthBase8 rest

/-- `decodeZeroWidthToBits` (binary mode): unmapped characters contribute
nothing (`|| ''`). -/
def decodeZeroWidthToBits (zw : List Char) : List Bool :=
  zw.filterMap binaryCharToBit

/-- `decodeZeroWidthBase4ToBits`. -/
def decodeZeroWidthBase4ToBits (zw : List Char) : List Bool :=
  (zw.filterMap base4CharToBits).flatten

/-- `decodeZeroWidthBase8ToBits`. -/
def decodeZeroWidthBase8ToBits (zw : List Char) : List Bool :=
  (zw.filterMap base8CharToBits).flatten

/-- `extractZeroWidthChars`: the subsequence of recognized zero-width
characters, in order. -/
def extractZeroWidthChars (text : String) : List Char :=
  text.data.filter isZeroWidth

/-! ## Seeded placement (`SimpleRandom`, `insertWatermarkRandomly`) -/

/-- One LCG step of `SimpleRandom.next`:
`seed = (seed * 9301 + 49297) % 233280`. -/
def lcgNext (s : Nat) : Nat := (s * 9301 + 49297) % 233280

/-- `SimpleRandom.nextInt(max)` evaluated on the post-step seed:
`Math.floor(seed / 233280 * max)`, computed here in exact arithmetic
(`s * max / 233280`); JS computes the same value in double precision for
the magnitudes that occur. -/
def lcgNextInt (s max : Nat) : Nat := s * max / 233280

/-- The `do { pos = random.nextInt(...) } while (positions.includes(pos))`
rejection loop: draw until the position is fresh. The loop has no a-priori
termination bound (the LCG could cycle through taken positions), so it
carries fuel and returns the drawn position together with the new seed. -/
def drawFresh : Nat → Nat → Nat → List Nat → Option (Nat × Nat)
  | 0, _, _, _ => none
  | fuel + 1, s, max, taken =>
    let s1 := lcgNext s
    let pos := lcgNextInt s1 max
    if taken.contains pos then drawFresh fuel s1 max taken else some (pos, s1)

/-- The position-generation loop of `insertWatermarkRandomly`: for
`i = 0 .. count-1`, draw a fresh position in
`[0, textLen + i + 1)` and append it. -/
def genPositionsAux (textLen : Nat) (fuel : Nat) :
    Nat → Nat → Nat → List Nat → Option (List Nat)
  | _, 0, _, acc => some acc
  | i, rem + 1, s, acc =>
    match drawFresh fuel s (textLen + i + 1) acc with
    | none => none
    | some (pos, s1) => genPositionsAux textLen fuel (i + 1) rem s1 (acc ++ [pos])

/-- All insertion positions for a watermark of `count` characters. -/
def genPositions (fuel s0 textLen count : Nat) : Option (List Nat) :=
  genPositionsAux textLen fuel 0 count s0 []

/-- `positions.sort((a, b) => b - a)`: sort descending. The positions are
pairwise distinct, so the descending order is unique and any correct sort
models the JS sort. -/
def sortPositionsDesc (ps : List Nat) : List Nat :=
  ps.insertionSort (· ≥ ·)

/-- `result.splice(pos, 0, char)`: insert at `pos`, clamped to the array
length (JS `splice` appends when the index is past the end). -/
def spliceInsert (l : List Char) (pos : Nat) (c : Char) : List Char :=
  l.insertIdx (min pos l.length) c

/-- The insertion loop of `insertWatermarkRandomly`: character `index` of
the watermark goes to `positions[positions.length - 1 - index]` of the
descending-sorted positions (i.e. the positions in ascending order). -/
def insertAtSorted (text : List Char) (wm : List Char) (sortedDesc : List Nat) : List Char :=
  wm.enum.foldl
    (fun res p => spliceInsert res (sortedDesc.getD (wm.length - 1 - p.1) 0) p.2)
    text

/-- `insertWatermarkRandomly(originalText, watermarkChars, seed)`. The seed
defaults to `Date.now()`, modelled by the explicit `now` argument; `fuel`
bounds the rejection loop. -/
def insertWatermarkRandomly (originalText : String) (watermarkChars : List Char)
    (seed : Option Nat) (now fuel : Nat) : Option String :=
  if watermarkChars.length = 0 then some originalText
  else
    match genPositions fuel (seed.getD now) originalText.data.length watermarkChars.length with
    | none => none
    | some ps => some (String.mk (insertAtSorted originalText.data watermarkChars
        (sortPositionsDesc ps)))

/-! ## The `TextBlindWatermark` operations (`src/index.ts`) -/

/-- The `encoding` option. -/
inductive WmEncoding where
  | hex
  | binary
  | base4
  | base8
deriving DecidableEq

/-- A configured `TextBlindWatermark` instance: the password bytes (a
string password is first UTF-8 encoded by the constructor), the optional
seed, and the encoding. -/
structure TbwConfig where
  password : List Nat
  seed : Option Nat
  encoding : WmEncoding

/-- The error kinds `extract` can raise (the source throws `Error` objects
with fixed messages; the taxonomy names of the specification are used). -/
inductive WmError where
  | notFound
  | malformed
  | invalidLength
deriving DecidableEq

/-- `numberToFixedBits(n, 32)`: `Math.max(0, n >>> 0).toString(2)`,
truncated to the last 32 digits if longer, left-padded with zeros.
`n >>> 0` is `n % 2^32` for a non-negative integer, whose binary string
never exceeds 32 digits, so the truncation branch is vacuous. -/
def numberToFixedBits32 (n : Nat) : List Bool :=
  padStartB 32 (natToBin (n % 4294967296))

/-- `addWatermarkRandom(text, watermark)`: XOR-obfuscate the payload bytes
with the password, serialize with the configured alphabet, and insert at
seeded random positions. `now` models `Date.now()` (used only when no seed
is configured), `fuel` bounds the rejection loop. -/
def addWatermarkRandom (cfg : TbwConfig) (text : String) (watermarkBytes : List Nat)
    (now fuel : Nat) : Option String :=
  let encryptedWatermark := xorCrypt watermarkBytes cfg.password
  match cfg.encoding with
  | .binary =>
      insertWatermarkRandomly text
        (encodeBitsToZeroWidth (bytesToBitString encryptedWatermark)) cfg.seed now fuel
  | .base4 =>
      insertWatermarkRandomly text
        (encodeBitsToZeroWidthBase4 (bytesToBitString encryptedWatermark)) cfg.seed now fuel
  | .base8 =>
      insertWatermarkRandomly text
        (encodeBitsToZeroWidthBase8
          (numberToFixedBits32 encryptedWatermark.length ++
            bytesToBitString encryptedWatermark)) cfg.seed now fuel
  | .hex =>
      insertWatermarkRandomly text
        (encodeToZeroWidth (bytesToHex encryptedWatermark)) cfg.seed now fuel

/-- `extract(textWithWatermark)`: collect the recognized zero-width
characters, decode them with the configured alphabet, and XOR with the
password. -/
def extract (cfg : TbwConfig) (textWithWatermark : String) : Except WmError (List Nat) :=
  let zeroWidthChars := extractZeroWidthChars textWithWatermark
  if zeroWidthChars.length = 0 then .error .notFound
  else
    match cfg.encoding with
    | .binary =>
        let bits := decodeZeroWidthToBits zeroWidthChars
        if bits.length = 0 ∨ bits.length % 8 ≠ 0 then .error .malformed
        else .ok (xorCrypt (bitsToBytes bits) cfg.password)
    | .base4 =>
        let bits := decodeZeroWidthBase4ToBits zeroWidthChars
        if bits.length = 0 ∨ bits.length % 8 ≠ 0 then .error .malformed
        else .ok (xorCrypt (bitsToBytes bits) cfg.password)
    | .base8 =>
        let bits := decodeZeroWidthBase8ToBits zeroWidthChars
        if bits.length < 32 then .error .malformed
        else
          let lenBytes := parseBin (bits.take 32)
          let payloadBits := (bits.drop 32).take (lenBytes * 8)
          if payloadBits.length ≠ lenBytes * 8 then .error .invalidLength
          else .ok (xorCrypt (bitsToBytes payloadBits) cfg.password)
    | .hex =>
        let hexWatermark := decodeFromZeroWidth zeroWidthChars
        if hexWatermark.length = 0 ∨ hexWatermark.length % 2 ≠ 0 then .error .malformed
        else .ok (xorCrypt (hexToBytes hexWatermark) cfg.password)

/-- `removeWatermark(textWithWatermark)`: drop every recognized zero-width
character. -/
def removeWatermark (textWithWatermark : String) : String :=
  String.mk (textWithWatermark.data.filter fun c => ¬ isZeroWidth c)

/-! ## SHA-256 (models `CryptoJS.SHA256`, the digest behind
`calculateChecksum` in `src/text-blind-watermark.ts`). The claims verified
below depend only on the digest being a deterministic hex string; the full
FIPS-180-4 computation is nevertheless reproduced. All words are `Nat`
reduced modulo `2^32`. -/

/-- Right-rotation of a 32-bit word. -/
def rotr32 (x n : Nat) : Nat := (x / 2 ^ n + x % 2 ^ n * 2 ^ (32 - n)) % 4294967296

/-- Bitwise complement of a 32-bit word. -/
def not32 (x : Nat) : Nat := x ^^^ 4294967295

/-- SHA-256 state: eight 32-bit working variables. -/
structure Sha256State where
  a : Nat
  b : Nat
  c : Nat
  d : Nat
  e : Nat
  f : Nat
  g : Nat
  h : Nat

/-- Initial SHA-256 hash value (FIPS 180-4 section 5.3.3, written in
decimal). -/
def sha256Init : Sha256State :=
  ⟨1779033703, 3144134277, 1013904242, 2773480762, 1359893119, 2600822924,
   528734635, 1541459225⟩

/-- The 64 SHA-256 round constants (FIPS 180-4 section 4.2.2, written in
decimal). -/
def sha256K : List Nat :=
  [1116352408, 1899447441, 3049323471, 3921009573, 961987163, 1508970993,
   2453635748, 2870763221, 3624381080, 310598401, 607225278, 1426881987,
   1925078388, 2162078206, 2614888103, 3248222580, 3835390401, 4022224774,
   264347078, 604807628, 770255983, 1249150122, 1555081692, 1996064986,
   2554220882, 2821834349, 2952996808, 3210313671, 3336571891, 3584528711,
   113926993, 338241895, 666307205, 773529912, 1294757372, 1396182291,
   1695183700, 1986661051, 2177026350, 2456956037, 2730485921, 2820302411,
   3259730800, 3345764771, 3516065817, 3600352804, 4094571909, 275423344,
   430227734, 506948616, 659060556, 883997877, 958139571, 1322822218,
   1537002063, 1747873779, 1955562222, 2024104815, 2227730452, 2361852424,
   2428436474, 2756734187, 3204031479, 3329325298]

/-- Message padding: append `0x80`, zero bytes to 56 mod 64, then the
64-bit big-endian bit length. -/
def sha256Pad (msg : List Nat) : List Nat :=
  let bitLen := msg.length * 8
  let zeros := (56 + 64 - (msg.length + 1) % 64) % 64
  msg ++ [0x80] ++ List.replicate zeros 0 ++
    [bitLen / 2 ^ 56 % 256, bitLen / 2 ^ 48 % 256, bitLen / 2 ^ 40 % 256,
     bitLen / 2 ^ 32 % 256, bitLen / 2 ^ 24 % 256, bitLen / 2 ^ 16 % 256,
     bitLen / 2 ^ 8 % 256, bitLen % 256]

/-- Split the padded message into 64-byte chunks (fuel bounds the number of
chunks). -/
def sha256Chunks : Nat → List Nat → List (List Nat)
  | 0, _ => []
  | _, [] => []
  | fuel + 1, l => l.take 64 :: sha256Chunks fuel (l.drop 64)

/-- First 16 schedule words of a chunk (big-endian 32-bit reads). -/
def sha256InitWords (chunk : List Nat) : Nat → List Nat
  | 0 => []
  | i + 1 =>
      sha256InitWords chunk i ++
        [chunk.getD (i * 4) 0 * 16777216 + chunk.getD (i * 4 + 1) 0 * 65536 +
         chunk.getD (i * 4 + 2) 0 * 256 + chunk.getD (i * 4 + 3) 0]

/-- Message-schedule extension step. -/
def sha256ExtendWord (w : List Nat) : Nat :=
  let s0 := rotr32 (w.getD (w.length - 15) 0) 7 ^^^ rotr32 (w.getD (w.length - 15) 0) 18 ^^^
    w.getD (w.length - 15) 0 / 8
  let s1 := rotr32 (w.getD (w.length - 2) 0) 17 ^^^ rotr32 (w.getD (w.length - 2) 0) 19 ^^^
    w.getD (w.length - 2) 0 / 1024
  (w.getD (w.length - 16) 0 + s0 + w.getD (w.length - 7) 0 + s1) % 4294967296

/-- Extend the schedule to 64 words. -/
def sha256Extend : Nat → List Nat → List Nat
  | 0, w => w
  | fuel + 1, w => if w.length ≥ 64 then w else sha256Extend fuel (w ++ [sha256ExtendWord w])

/-- One compression round. -/
def sha256Round (st : Sha256State) (kw : Nat × Nat) : Sha256State :=
  let s1 := rotr32 st.e 6 ^^^ rotr32 st.e 11 ^^^ rotr32 st.e 25
  let ch := st.e &&& st.f ^^^ not32 st.e &&& st.g
  let temp1 := (st.h + s1 + ch + kw.1 + kw.2) % 4294967296
  let s0 := rotr32 st.a 2 ^^^ rotr32 st.a 13 ^^^ rotr32 st.a 22
  let maj := st.a &&& st.b ^^^ st.a &&& st.c ^^^ st.b &&& st.c
  let temp2 := (s0 + maj) % 4294967296
  ⟨(temp1 + temp2) % 4294967296, st.a, st.b, st.c,
   (st.d + temp1) % 4294967296, st.e, st.f, st.g⟩

/-- Process one 64-byte chunk. -/
def sha256ProcessChunk (st : Sha256State) (chunk : List Nat) : Sha256State :=
  let w := sha256Extend 48 (sha256InitWords chunk 16)
  let r := (sha256K.zip w).foldl sha256Round st
  ⟨(st.a + r.a) % 4294967296, (st.b + r.b) % 4294967296, (st.c + r.c) % 4294967296,
   (st.d + r.d) % 4294967296, (st.e + r.e) % 4294967296, (st.f + r.f) % 4294967296,
   (st.g + r.g) % 4294967296, (st.h + r.h) % 4294967296⟩

/-- Big-endian bytes of a 32-bit word. -/
def wordBytesBE (x : Nat) : List Nat :=
  [x / 16777216 % 256, x / 65536 % 256, x / 256 % 256, x % 256]

/-- SHA-256 digest (32 bytes) of a byte sequence. -/
def sha256Digest (msg : List Nat) : List Nat :=
  let padded := sha256Pad msg
  let st := (sha256Chunks (padded.length / 64 + 1) padded).foldl sha256ProcessChunk sha256Init
  wordBytesBE st.a ++ wordBytesBE st.b ++ wordBytesBE st.c ++ wordBytesBE st.d ++
    wordBytesBE st.e ++ wordBytesBE st.f ++ wordBytesBE st.g ++ wordBytesBE st.h

/-- `CryptoJS.SHA256(data).toString()`: lowercase hex of the digest of the
UTF-8 bytes of the string. -/
def sha256HexChars (data : String) : List Char :=
  (sha256Digest (utf8Bytes data)).flatMap fun b => [hexDigitChar (b / 16), hexDigitChar (b % 16)]

/-- `calculateChecksum(data)`: first 8 hex characters of the SHA-256. -/
def calculateChecksum (data : String) : String :=
  String.mk ((sha256HexChars data).take 8)

/-! ## Image steganography codec (`src/text-blind-watermark.ts`) -/

/-- `ImageSteganographyOptions` (the `compress` flag is accepted by the
constructor but never read by the codec, so it is omitted). -/
structure StegoOptions where
  password : Option String
  checksum : Bool

/-- `StegoImageData`: row-major RGBA bytes with dimensions. -/
structure StegoImageData where
  data : List Nat
  width : Nat
  height : Nat
deriving DecidableEq

/-- The error kinds raised by `hideData`/`extractData` (the source throws
`Error` objects with formatted messages; `capacityExceeded` carries the two
numbers interpolated into the message). -/
inductive StegoError where
  | capacityExceeded (maxCapacity totalDataSize : Int)
  | invalidLength
  | integrityCheckFailed
  | invalidMetadata
  | decryptionFailed
deriving DecidableEq

/-- Truthiness of `this.options.password`: present and non-empty (the empty
string is falsy in JS). -/
def hasPassword (opts : StegoOptions) : Bool :=
  match opts.password with
  | some pw => pw ≠ ""
  | none => false

/-- `stringToBinary(str)`: UTF-8 bytes, each as 8 binary digits. -/
def stringToBinary (str : String) : List Bool :=
  (utf8Bytes str).flatMap byteToBits8

/-- `binaryToString(binary)`: regroup into bytes (dropping a trailing
partial byte) and UTF-8 decode. -/
def binaryToString (binary : List Bool) : String :=
  utf8DecodeBytes (bitsToBytes binary)

/-- Modelled stand-in for `aesEncrypt` (`CryptoJS.AES.encrypt` with a
PBKDF2-derived key; crypto-js is an external dependency, not part of this
repository). The verified claims never depend on the ciphertext value,
only on the fact that encryption turns the message into some string
determined by `(message, password, salt, iv)`; the random salt and IV of
the source are explicit arguments here. -/
def aesEncryptModel (data pw salt iv : String) : String :=
  String.mk (bytesToHex (xorCrypt (utf8Bytes data) (utf8Bytes (pw ++ salt ++ iv) ++ [90])))

/-- Modelled stand-in for `aesDecrypt`: inverts `aesEncryptModel` and, as
the source does, throws when the decrypted UTF-8 text is empty
(`if (!result) throw new Error(...)`). -/
def aesDecryptModel (encryptedData pw salt iv : String) : Except Unit String :=
  let result := utf8DecodeBytes
    (xorCrypt (hexToBytes encryptedData.data) (utf8Bytes (pw ++ salt ++ iv) ++ [90]))
  if result = "" then .error () else .ok result

/-- `getMaxCapacity(imageData)`:
`Math.floor((totalBits - headerBits) / 8)` with
`headerBits = 32 + (checksum ? 16 : 0)`; `Math.floor` of a possibly
negative quotient is `Int.fdiv`. -/
def getMaxCapacity (opts : StegoOptions) (imageData : StegoImageData) : Int :=
  Int.fdiv ((imageData.width * imageData.height * 3 : Int) -
    (32 + if opts.checksum then 16 else 0)) 8

/-- LSB of `imageData.data[idx]`; an out-of-range read is JS
`undefined & 1 = 0`. -/
def lsbAt (data : List Nat) (idx : Nat) : Bool := data.getD idx 0 % 2 == 1

/-- `x |= 1` / `x &= 0xFE` on a channel byte. -/
def setLSB (x : Nat) (bit : Bool) : Nat := 2 * (x / 2) + (if bit then 1 else 0)

/-- The embedding loop of `hideData`: walk pixels (4 bytes each), write one
frame bit into the LSB of each of the first three channels, stop when the
frame is exhausted. A trailing partial pixel (impossible for RGBA buffers,
whose length is divisible by 4) receives writes only to its existing
bytes, as JS typed arrays ignore out-of-range writes. -/
def writeBits : List Nat → List Bool → List Nat
  | data, [] => data
  | [], _ => []
  | r :: g :: b :: a :: rest, [b0] => setLSB r b0 :: g :: b :: a :: rest
  | r :: g :: b :: a :: rest, [b0, b1] => setLSB r b0 :: setLSB g b1 :: b :: a :: rest
  | r :: g :: b :: a :: rest, b0 :: b1 :: b2 :: more =>
      setLSB r b0 :: setLSB g b1 :: setLSB b b2 :: a :: writeBits rest more
  | [r], b0 :: _ => [setLSB r b0]
  | [r, g], [b0] => [setLSB r b0, g]
  | [r, g], b0 :: b1 :: _ => [setLSB r b0, setLSB g b1]
  | [r, g, b], [b0] => [setLSB r b0, g, b]
  | [r, g, b], [b0, b1] => [setLSB r b0, setLSB g b1, b]
  | [r, g, b], b0 :: b1 :: b2 :: _ => [setLSB r b0, setLSB g b1, setLSB b b2]

/-- The LSB bit stream of a pixel buffer: the first three channel LSBs of
each 4-byte pixel, in order (a trailing partial pixel reads missing
channels as 0, matching the extraction loops' out-of-range reads). -/
def lsbStream : List Nat → List Bool
  | [] => []
  | r :: g :: b :: _a :: rest => lsbAt [r] 0 :: lsbAt [g] 0 :: lsbAt [b] 0 :: lsbStream rest
  | [r] => [lsbAt [r] 0, false, false]
  | [r, g] => [lsbAt [r] 0, lsbAt [g] 0, false]
  | [r, g, b] => [lsbAt [r] 0, lsbAt [g] 0, lsbAt [b] 0]

/-- The inner channel loop of the extraction loops:
`for (channel = ch; channel < 3 && bi < target; channel++)`, reading
`data[i + channel] & 1`. The fuel starts at 3, enough for any start
channel. -/
def readChannelsAux (data : List Nat) (i : Nat) : Nat → Nat → Nat → Nat → List Bool
  | 0, _, _, _ => []
  | fuel + 1, ch, bi, target =>
    if ch < 3 ∧ bi < target then
      lsbAt data (i + ch) :: readChannelsAux data i fuel (ch + 1) (bi + 1) target
    else []

/-- One pixel's worth of channel reads starting at channel `bi % 3`. -/
def readChannels (data : List Nat) (i bi target : Nat) : List Bool :=
  readChannelsAux data i 3 (bi % 3) bi target

/-- The outer pixel loop of the extraction loops:
`for (i = start; i < data.length && bi < target; i += 4)`, each iteration
re-entering the channel loop at `bi % 3` (the first extraction loop starts
at `channel = 0`, which coincides with `bi % 3` since it starts at
`bi = 0` and leaves `bi` a multiple of 3 at every outer step). The fuel
bounds the number of outer iterations; `data.length` always suffices. -/
def readOuter (data : List Nat) : Nat → Nat → Nat → Nat → List Bool
  | 0, _, _, _ => []
  | fuel + 1, i, bi, target =>
    if i < data.length ∧ bi < target then
      readChannels data i bi target ++
        readOuter data fuel (i + 4) (bi + (readChannels data i bi target).length) target
    else []

/-- One resumable extraction loop: continue reading LSBs at bit position
`bi` (pixel `Math.floor(bi / 3) * 4`, channel `bi % 3`) until `target`
bits have been accumulated in total or the buffer ends. -/
def readSegment (data : List Nat) (bi target : Nat) : List Bool :=
  readOuter data data.length (bi / 3 * 4) bi target

/-- The frame assembled by `hideData`:
`[32-bit meta length] [metadata bits] [32-bit message length]
[checksum bits if enabled] [message bits]`. `salt`/`iv` model the random
salt and IV drawn inside `aesEncrypt` when a password is configured. -/
def hideFrame (opts : StegoOptions) (message salt iv : String) : List Bool :=
  let processedMessage :=
    if hasPassword opts then aesEncryptModel message (opts.password.getD "") salt iv
    else message
  let encryptionMeta := if hasPassword opts then salt ++ ":" ++ iv else ""
  let check := if opts.checksum then calculateChecksum processedMessage else ""
  let encryptionMetaBinary := stringToBinary encryptionMeta
  let encryptionMetaLength := encryptionMetaBinary.length / 8
  let encryptionMetaLengthBinary := padStartB 32 (natToBin encryptionMetaLength)
  let messageBinary := stringToBinary processedMessage
  let messageByteLength := messageBinary.length / 8
  let lengthBinary := padStartB 32 (natToBin messageByteLength)
  let checksumBinary := if opts.checksum then stringToBinary check else []
  encryptionMetaLengthBinary ++ encryptionMetaBinary ++ lengthBinary ++
    checksumBinary ++ messageBinary

/-- `totalDataSize` of `hideData`:
`encryptionMetaLength + messageByteLength + (checksum ? checksum.length : 0)`. -/
def hideTotalDataSize (opts : StegoOptions) (message salt iv : String) : Nat :=
  let processedMessage :=
    if hasPassword opts then aesEncryptModel message (opts.password.getD "") salt iv
    else message
  let encryptionMeta := if hasPassword opts then salt ++ ":" ++ iv else ""
  let check := if opts.checksum then calculateChecksum processedMessage else ""
  (stringToBinary encryptionMeta).length / 8 + (stringToBinary processedMessage).length / 8 +
    (if opts.checksum then check.length else 0)

/-- `hideData(imageData, message)`: check capacity, then embed the frame
bit-by-bit into channel LSBs of a copy of the buffer. `salt`/`iv` are the
random values drawn by `aesEncrypt` (unused without a password). -/
def hideData (opts : StegoOptions) (imageData : StegoImageData) (message salt iv : String) :
    Except StegoError StegoImageData :=
  if (hideTotalDataSize opts message salt iv : Int) > getMaxCapacity opts imageData then
    .error (.capacityExceeded (getMaxCapacity opts imageData)
      (hideTotalDataSize opts message salt iv))
  else
    .ok ⟨writeBits imageData.data (hideFrame opts message salt iv),
      imageData.width, imageData.height⟩

/-- `extractData(imageData)`: read the self-describing frame back, in the
source's four resumable loops, verify the checksum if enabled, and decrypt
if a password is configured and metadata is present. -/
def extractData (opts : StegoOptions) (imageData : StegoImageData) :
    Except StegoError String :=
  let data := imageData.data
  let b1 := readSegment data 0 32
  let encryptionMetaLength := parseBin b1
  let encryptionMetaBits := encryptionMetaLength * 8
  let s2 := readSegment data b1.length (32 + encryptionMetaBits)
  let b2 := b1 ++ s2
  let encryptionMeta := binaryToString ((b2.drop 32).take encryptionMetaBits)
  let s3 := readSegment data b2.length (32 + encryptionMetaBits + 32)
  let b3 := b2 ++ s3
  let messageByteLength := parseBin ((b3.drop (32 + encryptionMetaBits)).take 32)
  if (messageByteLength : Int) < 0 ∨ (messageByteLength : Int) > getMaxCapacity opts imageData then
    .error .invalidLength
  else if messageByteLength = 0 then .ok ""
  else
    let checksumBits := if opts.checksum then 64 else 0
    let totalBitsNeeded := 32 + encryptionMetaBits + 32 + checksumBits + messageByteLength * 8
    let s4 := readSegment data b3.length totalBitsNeeded
    let b4 := b3 ++ s4
    let dataStartIndex := 32 + encryptionMetaBits + 32
    let messageBinary := b4.drop (dataStartIndex + checksumBits)
    let extractedMessage := binaryToString messageBinary
    let afterChecksum : Except StegoError String :=
      if hasPassword opts ∧ encryptionMeta ≠ "" then
        let parts := encryptionMeta.splitOn ":"
        let salt := parts.getD 0 ""
        let iv := parts.getD 1 ""
        if salt = "" ∨ iv = "" then .error .invalidMetadata
        else
          match aesDecryptModel extractedMessage (opts.password.getD "") salt iv with
          | .ok m => .ok m
          | .error _ => .error .decryptionFailed
      else .ok extractedMessage
    if opts.checksum then
      let extractedChecksum := binaryToString ((b4.drop dataStartIndex).take checksumBits)
      if extractedChecksum ≠ calculateChecksum extractedMessage then
        .error .integrityCheckFailed
      else afterChecksum
    else afterChecksum

/-! ## Lemmas: binary digit strings -/

/-- Equality of `Except` values is decidable componentwise. -/
instance {ε α : Type} [DecidableEq ε] [DecidableEq α] : DecidableEq (Except ε α) := fun a b =>
  match a, b with
  | .ok x, .ok y =>
      if h : x = y then .isTrue (by rw [h]) else .isFalse (by simp [h])
  | .error x, .error y =>
      if h : x = y then .isTrue (by rw [h]) else .isFalse (by simp [h])
  | .ok _, .error _ => .isFalse (by simp)
  | .error _, .ok _ => .isFalse (by simp)

theorem foldl_parseBinStep_replicate_false (k : Nat) (a : Nat) :
    List.foldl parseBinStep a (List.replicate k false) = a * 2 ^ k := by
  induction k generalizing a with
  | zero => simp
  | succ k ih =>
      rw [List.replicate_succ, List.foldl_cons, ih]
      simp [parseBinStep]
      ring

theorem parseBin_replicate_false_append (k : Nat) (l : List Bool) :
    parseBin (List.replicate k false ++ l) = parseBin l := by
  unfold parseBin
  rw [List.foldl_append, foldl_parseBinStep_replicate_false]
  simp

theorem parseBin_padStartB (w : Nat) (l : List Bool) :
    parseBin (padStartB w l) = parseBin l :=
  parseBin_replicate_false_append _ _

theorem parseBin_append_single (l : List Bool) (b : Bool) :
    parseBin (l ++ [b]) = 2 * parseBin l + (if b then 1 else 0) := by
  unfold parseBin
  rw [List.foldl_append]
  simp [parseBinStep]

theorem parseBin_natToBinAux (fuel n : Nat) (h : n < 2 ^ fuel) :
    parseBin (natToBinAux fuel n) = n := by
  induction fuel generalizing n with
  | zero =>
      interval_cases n
      simp [natToBinAux, parseBin]
  | succ fuel ih =>
      unfold natToBinAux
      by_cases h0 : n = 0
      · simp [h0, parseBin]
      · rw [if_neg h0, parseBin_append_single, ih (n / 2) (by omega)]
        have hm := Nat.div_add_mod n 2
        have : n % 2 = 1 ∨ n % 2 = 0 := by omega
        rcases this with h1 | h1 <;> simp [h1] <;> omega

theorem parseBin_natToBin (n : Nat) (h : n < 2 ^ 64) : parseBin (natToBin n) = n := by
  unfold natToBin
  by_cases h0 : n = 0
  · simp [h0, parseBin, parseBinStep]
  · rw [if_neg h0, parseBin_natToBinAux 64 n h]

theorem natToBinAux_length (fuel k n : Nat) (hn : n < 2 ^ k) (hk : k ≤ fuel) :
    (natToBinAux fuel n).length ≤ k := by
  induction fuel generalizing k n with
  | zero => interval_cases k <;> interval_cases n <;> simp [natToBinAux]
  | succ fuel ih =>
      unfold natToBinAux
      by_cases h0 : n = 0
      · simp [h0]
      · rw [if_neg h0]
        have hk1 : 1 ≤ k := by
          by_contra hc
          interval_cases k
          omega
        have := ih (k - 1) (n / 2) (by
          have h2 : 2 ^ k = 2 * 2 ^ (k - 1) := by
            conv_lhs => rw [show k = 1 + (k - 1) by omega]
            rw [pow_add]
            ring
          omega) (by omega)
        simp only [List.length_append, List.length_singleton]
        omega

theorem natToBin_length (k n : Nat) (hn : n < 2 ^ k) (h1 : 1 ≤ k) (hk : k ≤ 64) :
    (natToBin n).length ≤ k := by
  unfold natToBin
  by_cases h0 : n = 0
  · simpa [h0] using h1
  · rw [if_neg h0]
    exact natToBinAux_length 64 k n hn (by omega)

theorem padStartB_length (w : Nat) (l : List Bool) (h : l.length ≤ w) :
    (padStartB w l).length = w := by
  simp [padStartB]
  omega

theorem parseBin_padStartB_natToBin (w n : Nat) (hn : n < 2 ^ 64) :
    parseBin (padStartB w (natToBin n)) = n := by
  rw [parseBin_padStartB, parseBin_natToBin n hn]

theorem byteToBits8_length (b : Nat) (h : b < 256) : (byteToBits8 b).length = 8 :=
  padStartB_length 8 _ (natToBin_length 8 b (by norm_num; omega) (by norm_num) (by norm_num))

theorem parseBin_byteToBits8 (b : Nat) (h : b < 256) : parseBin (byteToBits8 b) = b :=
  parseBin_padStartB_natToBin 8 b (by omega)

theorem bitsToBytes_cons8 (l : List Bool) (h : l.length = 8) (rest : List Bool) :
    bitsToBytes (l ++ rest) = parseBin l :: bitsToBytes rest := by
  match l, h with
  | [b0, b1, b2, b3, b4, b5, b6, b7], _ => rfl

theorem bitsToBytes_flatMap_byteToBits8 (bytes : List Nat) (h : ∀ b ∈ bytes, b < 256) :
    bitsToBytes (bytes.flatMap byteToBits8) = bytes := by
  induction bytes with
  | nil => rfl
  | cons b bs ih =>
      have hb : b < 256 := h b (List.mem_cons_self b bs)
      rw [List.flatMap_cons, bitsToBytes_cons8 _ (byteToBits8_length b hb),
        parseBin_byteToBits8 b hb, ih fun x hx => h x (List.mem_cons_of_mem b hx)]

theorem flatMap_byteToBits8_length (bytes : List Nat) (h : ∀ b ∈ bytes, b < 256) :
    (bytes.flatMap byteToBits8).length = 8 * bytes.length := by
  induction bytes with
  | nil => rfl
  | cons b bs ih =>
      rw [List.flatMap_cons, List.length_append,
        byteToBits8_length b (h b (List.mem_cons_self b bs)),
        ih fun x hx => h x (List.mem_cons_of_mem b hx), List.length_cons]
      ring

/-! ## Lemmas: UTF-8 round trip -/

theorem Char.toNat_lt_unicode (c : Char) : c.toNat < 1114112 := by
  rcases c.valid with h | h
  · exact Nat.lt_trans h (by norm_num)
  · exact h.2

theorem encodeCodePoint_byte_lt (v : Nat) (hv : v < 1114112) :
    ∀ b ∈ encodeCodePoint v, b < 256 := by
  intro b hb
  unfold encodeCodePoint at hb
  split at hb
  · simp only [List.mem_singleton] at hb
    omega
  · split at hb
    · have h1 : v / 64 < 32 := by omega
      have h2 : v % 64 < 64 := Nat.mod_lt _ (by norm_num)
      simp only [List.mem_cons, List.mem_singleton, List.not_mem_nil, or_false] at hb
      rcases hb with hb | hb <;> omega
    · split at hb
      · have h1 : v / 4096 < 16 := by omega
        have h2 : v / 64 % 64 < 64 := Nat.mod_lt _ (by norm_num)
        have h3 : v % 64 < 64 := Nat.mod_lt _ (by norm_num)
        simp only [List.mem_cons, List.mem_singleton, List.not_mem_nil, or_false] at hb
        rcases hb with hb | hb | hb <;> omega
      · have h1 : v / 262144 < 8 := by omega
        have h2 : v / 4096 % 64 < 64 := Nat.mod_lt _ (by norm_num)
        have h3 : v / 64 % 64 < 64 := Nat.mod_lt _ (by norm_num)
        have h4 : v % 64 < 64 := Nat.mod_lt _ (by norm_num)
        simp only [List.mem_cons, List.mem_singleton, List.not_mem_nil, or_false] at hb
        rcases hb with hb | hb | hb | hb <;> omega

theorem utf8EncodeChar_byte_lt (c : Char) : ∀ b ∈ utf8EncodeChar c, b < 256 :=
  encodeCodePoint_byte_lt c.toNat (Char.toNat_lt_unicode c)

theorem utf8Bytes_lt (s : String) : ∀ b ∈ utf8Bytes s, b < 256 := by
  intro b hb
  unfold utf8Bytes at hb
  rcases List.mem_flatMap.1 hb with ⟨c, _, hbc⟩
  exact utf8EncodeChar_byte_lt c b hbc

theorem utf8EncodeChar_length_pos (c : Char) : 1 ≤ (utf8EncodeChar c).length := by
  unfold utf8EncodeChar encodeCodePoint
  split
  · simp
  · split
    · simp
    · split <;> simp

/-- Decoding one encoded character off the front of a byte stream
recovers the character and continues with one unit less fuel. -/
theorem utf8DecodeAux_encodeChar (fuel : Nat) (c : Char) (rest : List Nat) :
    utf8DecodeAux (fuel + 1) (utf8EncodeChar c ++ rest) = c :: utf8DecodeAux fuel rest := by
  have hv : c.toNat < 1114112 := Char.toNat_lt_unicode c
  unfold utf8EncodeChar encodeCodePoint
  by_cases h1 : c.toNat ≤ 0x7f
  · rw [if_pos h1]
    show utf8DecodeAux (fuel + 1) (c.toNat :: rest) = _
    rw [utf8DecodeAux, if_pos (by omega), Char.ofNat_toNat]
  · rw [if_neg h1]
    by_cases h2 : c.toNat ≤ 0x7ff
    · rw [if_pos h2]
      show utf8DecodeAux (fuel + 1)
        ((192 + c.toNat / 64) :: (128 + c.toNat % 64) :: rest) = _
      rw [utf8DecodeAux]
      have hd : c.toNat / 64 < 32 := by omega
      have hm : c.toNat % 64 < 64 := Nat.mod_lt _ (by norm_num)
      rw [if_neg (by omega), if_pos (by omega)]
      have he1 : (192 + c.toNat / 64) % 32 = c.toNat / 64 := by omega
      have he2 : (128 + c.toNat % 64) % 64 = c.toNat % 64 := by omega
      simp only [List.headD_cons, List.tail_cons, he1, he2]
      rw [show c.toNat / 64 * 64 + c.toNat % 64 = c.toNat by omega, Char.ofNat_toNat]
    · rw [if_neg h2]
      by_cases h3 : c.toNat ≤ 0xffff
      · rw [if_pos h3]
        show utf8DecodeAux (fuel + 1)
          ((224 + c.toNat / 4096) :: (128 + c.toNat / 64 % 64) :: (128 + c.toNat % 64) :: rest) = _
        rw [utf8DecodeAux]
        have hd : c.toNat / 4096 < 16 := by omega
        have hm1 : c.toNat / 64 % 64 < 64 := Nat.mod_lt _ (by norm_num)
        have hm2 : c.toNat % 64 < 64 := Nat.mod_lt _ (by norm_num)
        rw [if_neg (by omega), if_neg (by omega), if_pos (by omega)]
        have he1 : (224 + c.toNat / 4096) % 16 = c.toNat / 4096 := by omega
        have he2 : (128 + c.toNat / 64 % 64) % 64 = c.toNat / 64 % 64 := by omega
        have he3 : (128 + c.toNat % 64) % 64 = c.toNat % 64 := by omega
        simp only [List.headD_cons, List.tail_cons, he1, he2, he3]
        rw [show c.toNat / 4096 * 4096 + c.toNat / 64 % 64 * 64 + c.toNat % 64 = c.toNat by omega,
          Char.ofNat_toNat]
      · rw [if_neg h3]
        show utf8DecodeAux (fuel + 1)
          ((240 + c.toNat / 262144) :: (128 + c.toNat / 4096 % 64) ::
            (128 + c.toNat / 64 % 64) :: (128 + c.toNat % 64) :: rest) = _
        rw [utf8DecodeAux]
        have hd : c.toNat / 262144 < 5 := by omega
        have hm1 : c.toNat / 4096 % 64 < 64 := Nat.mod_lt _ (by norm_num)
        have hm2 : c.toNat / 64 % 64 < 64 := Nat.mod_lt _ (by norm_num)
        have hm3 : c.toNat % 64 < 64 := Nat.mod_lt _ (by norm_num)
        rw [if_neg (by omega), if_neg (by omega), if_neg (by omega), if_pos (by omega)]
        have he1 : (240 + c.toNat / 262144) % 8 = c.toNat / 262144 := by omega
        have he2 : (128 + c.toNat / 4096 % 64) % 64 = c.toNat / 4096 % 64 := by omega
        have he3 : (128 + c.toNat / 64 % 64) % 64 = c.toNat / 64 % 64 := by omega
        have he4 : (128 + c.toNat % 64) % 64 = c.toNat % 64 := by omega
        simp only [List.headD_cons, List.tail_cons, he1, he2, he3, he4]
        rw [show c.toNat / 262144 * 262144 + c.toNat / 4096 % 64 * 4096 +
          c.toNat / 64 % 64 * 64 + c.toNat % 64 = c.toNat by omega, Char.ofNat_toNat]

theorem utf8DecodeAux_nil (fuel : Nat) : utf8DecodeAux fuel [] = [] := by
  cases fuel <;> rfl

theorem utf8DecodeAux_flatMap (cs : List Char) (fuel : Nat) (h : cs.length ≤ fuel) :
    utf8DecodeAux fuel (cs.flatMap utf8EncodeChar) = cs := by
  induction cs generalizing fuel with
  | nil => simpa using utf8DecodeAux_nil fuel
  | cons c cs ih =>
      match fuel, h with
      | fuel + 1, h =>
        rw [List.flatMap_cons, utf8DecodeAux_encodeChar fuel c _,
          ih fuel (by simp only [List.length_cons] at h; omega)]

theorem length_flatMap_encode_ge (cs : List Char) :
    cs.length ≤ (cs.flatMap utf8EncodeChar).length := by
  induction cs with
  | nil => simp
  | cons c cs ih =>
      rw [List.flatMap_cons, List.length_append, List.length_cons]
      have := utf8EncodeChar_length_pos c
      omega

/-- UTF-8 decoding inverts UTF-8 encoding on every string. -/
theorem utf8DecodeBytes_utf8Bytes (s : String) : utf8DecodeBytes (utf8Bytes s) = s := by
  unfold utf8DecodeBytes utf8Bytes
  apply String.ext
  show utf8DecodeAux _ _ = s.data
  exact utf8DecodeAux_flatMap s.data _ (length_flatMap_encode_ge s.data)

theorem utf8Bytes_length_eq_zero (s : String) (h : (utf8Bytes s).length = 0) : s = "" := by
  have h2 := length_flatMap_encode_ge s.data
  unfold utf8Bytes at h
  apply String.ext
  have : s.data.length = 0 := by omega
  simpa using List.length_eq_zero.mp this

/-! ## Lemmas: XOR obfuscation -/

theorem xorCrypt_length (data key : List Nat) : (xorCrypt data key).length = data.length :=
  List.length_mapIdx

theorem xorCrypt_xorCrypt (data key : List Nat) : xorCrypt (xorCrypt data key) key = data := by
  unfold xorCrypt
  apply List.ext_getElem (by simp)
  intro n h1 h2
  simp only [List.getElem_mapIdx]
  exact Nat.xor_cancel_right _ _

theorem xorCrypt_lt_256 (data key : List Nat) (hd : ∀ b ∈ data, b < 256)
    (hk : ∀ b ∈ key, b < 256) : ∀ b ∈ xorCrypt data key, b < 256 := by
  intro b hb
  unfold xorCrypt at hb
  rw [List.mem_iff_getElem] at hb
  obtain ⟨n, hn, hb⟩ := hb
  have hn2 : n < data.length := by simpa using hn
  rw [List.getElem_mapIdx] at hb
  subst hb
  have h1 : data[n] < 256 := hd _ (List.getElem_mem _)
  have h2 : (if key.length = 0 then 0 else key.getD (n % key.length) 0) < 256 := by
    split
    · norm_num
    · next hne =>
        rw [List.getD_eq_getElem _ _ (Nat.mod_lt _ (by omega))]
        exact hk _ (List.getElem_mem _)
  have := Nat.xor_lt_two_pow (n := 8) (by simpa using h1) (by simpa using h2)
  simpa using this

theorem xorCrypt_nil (key : List Nat) : xorCrypt [] key = [] := rfl

/-! ## Lemmas: random insertion preserves both subsequences -/

theorem insertIdx_eq_take_cons_drop (l : List Char) (n : Nat) (a : Char) (h : n ≤ l.length) :
    List.insertIdx n a l = l.take n ++ a :: l.drop n := by
  induction l generalizing n with
  | nil =>
      have h0 : n = 0 := by simpa using h
      subst h0
      rfl
  | cons x xs ih =>
      cases n with
      | zero => rfl
      | succ n =>
          rw [List.insertIdx_succ_cons, List.take_succ_cons, List.drop_succ_cons,
            ih n (by simpa using h), List.cons_append]

theorem spliceInsert_eq (l : List Char) (pos : Nat) (c : Char) :
    spliceInsert l pos c =
      l.take (min pos l.length) ++ c :: l.drop (min pos l.length) :=
  insertIdx_eq_take_cons_drop l _ c (Nat.min_le_right _ _)

theorem spliceInsert_length (l : List Char) (pos : Nat) (c : Char) :
    (spliceInsert l pos c).length = l.length + 1 :=
  List.length_insertIdx _ _ (Nat.min_le_right _ _)

/-- The insertion fold, over explicit (position, character) pairs. -/
def insertPairs (text : List Char) (ps : List (Nat × Char)) : List Char :=
  ps.foldl (fun res pc => spliceInsert res pc.1 pc.2) text

theorem insertAtSorted_eq_insertPairs (text wm : List Char) (sd : List Nat)
    (hlen : sd.length = wm.length) :
    insertAtSorted text wm sd = insertPairs text (sd.reverse.zip wm) := by
  unfold insertAtSorted insertPairs
  have hpairs : sd.reverse.zip wm =
      wm.enum.map fun p => (sd.getD (wm.length - 1 - p.1) 0, p.2) := by
    apply List.ext_getElem
    · simp [hlen]
    · intro n h1 h2
      have hn : n < wm.length := by simpa [hlen] using h1
      have hnr : n < sd.reverse.length := by simpa [hlen] using hn
      rw [List.getElem_zip, List.getElem_map, List.getElem_enum, List.getElem_reverse]
      rw [List.getD_eq_getElem _ _ (by omega)]
      simp [hlen]
  rw [hpairs, List.foldl_map]

theorem filter_spliceInsert_neg (P : Char → Bool) (l : List Char) (pos : Nat) (c : Char)
    (hc : P c = false) : (spliceInsert l pos c).filter P = l.filter P := by
  rw [spliceInsert_eq]
  rw [List.filter_append, List.filter_cons_of_neg (by simp [hc])]
  rw [← List.filter_append, List.take_append_drop]

theorem filter_insertPairs_neg (P : Char → Bool) (ps : List (Nat × Char)) (text : List Char)
    (hc : ∀ pc ∈ ps, P pc.2 = false) :
    (insertPairs text ps).filter P = text.filter P := by
  induction ps generalizing text with
  | nil => rfl
  | cons pc rest ih =>
      show (insertPairs (spliceInsert text pc.1 pc.2) rest).filter P = _
      rw [ih _ fun x hx => hc x (List.mem_cons_of_mem _ hx),
        filter_spliceInsert_neg P _ _ _ (hc pc (List.mem_cons_self _ _))]

theorem filter_drop_eq_nil (P : Char → Bool) (l : List Char) (m k : Nat) (hmk : m ≤ k)
    (h : (l.drop m).filter P = []) : (l.drop k).filter P = [] := by
  have hsub : (l.drop k).Sublist (l.drop m) := by
    have hdd : l.drop k = (l.drop m).drop (k - m) := by
      rw [List.drop_drop]
      congr 1
      omega
    rw [hdd]
    exact List.drop_sublist _ _
  exact List.sublist_nil.mp (h ▸ hsub.filter P)

theorem filter_insertPairs_pos (P : Char → Bool) (ps : List (Nat × Char)) :
    ∀ (r : List Char) (m : Nat),
    List.Pairwise (fun a b => a.1 < b.1) ps →
    (∀ pc ∈ ps, m ≤ pc.1) →
    (∀ pc ∈ ps, P pc.2 = true) →
    m ≤ r.length →
    (r.drop m).filter P = [] →
    (insertPairs r ps).filter P = r.filter P ++ ps.map Prod.snd := by
  induction ps with
  | nil => intro r m _ _ _ _ _; simp [insertPairs]
  | cons pc rest ih =>
      intro r m hpw hge hP hmr hclean
      obtain ⟨q, c⟩ := pc
      set q1 := min q r.length with hq1
      have hq1r : q1 ≤ r.length := Nat.min_le_right _ _
      have hq1q : q1 ≤ q := Nat.min_le_left _ _
      have hmq1 : m ≤ q1 := le_min (hge (q, c) (List.mem_cons_self _ _)) hmr
      have hdropq1 : (r.drop q1).filter P = [] := filter_drop_eq_nil P r m q1 hmq1 hclean
      have hfr : r.filter P = (r.take q1).filter P := by
        conv_lhs => rw [← List.take_append_drop q1 r]
        rw [List.filter_append, hdropq1, List.append_nil]
      have hsplice : spliceInsert r q c = r.take q1 ++ c :: r.drop q1 := spliceInsert_eq r q c
      show (insertPairs (spliceInsert r q c) rest).filter P = _
      have htake_len : (r.take q1).length = q1 := List.length_take_of_le hq1r
      have hnew_len : q1 + 1 ≤ (spliceInsert r q c).length := by
        rw [spliceInsert_length]
        omega
      have hnew_drop : ((spliceInsert r q c).drop (q1 + 1)).filter P = [] := by
        rw [hsplice, List.drop_append_eq_append_drop, htake_len,
          List.drop_eq_nil_of_le (by rw [htake_len]; omega),
          show q1 + 1 - q1 = 1 by omega, List.nil_append, List.drop_one, List.tail_cons]
        exact hdropq1
      rw [ih (spliceInsert r q c) (q1 + 1) hpw.of_cons
        (fun x hx => by
          have := (List.pairwise_cons.mp hpw).1 x hx
          omega)
        (fun x hx => hP x (List.mem_cons_of_mem _ hx)) hnew_len hnew_drop]
      rw [hsplice, List.filter_append, List.filter_cons_of_pos (hP (q, c)
        (List.mem_cons_self _ _)), hdropq1, hfr]
      simp

/-! ## Lemmas: position generation and sorting -/

theorem drawFresh_not_taken (fuel s max : Nat) (taken : List Nat) (p t : Nat)
    (h : drawFresh fuel s max taken = some (p, t)) : ¬ p ∈ taken := by
  induction fuel generalizing s with
  | zero => exact absurd h (by simp [drawFresh])
  | succ fuel ih =>
      unfold drawFresh at h
      dsimp only at h
      split at h
      · exact ih _ h
      · next hc =>
          injection h with h
          injection h with h1 _
          subst h1
          simpa using hc

theorem genPositionsAux_spec (textLen fuel : Nat) (rem : Nat) :
    ∀ (i s : Nat) (acc ps : List Nat),
    genPositionsAux textLen fuel i rem s acc = some ps → acc.Nodup →
    ps.length = acc.length + rem ∧ ps.Nodup := by
  induction rem with
  | zero =>
      intro i s acc ps h hnd
      unfold genPositionsAux at h
      injection h with h
      subst h
      simpa using hnd
  | succ rem ih =>
      intro i s acc ps h hnd
      unfold genPositionsAux at h
      split at h
      · exact absurd h (by simp)
      · next pos s1 hdraw =>
          have hfresh := drawFresh_not_taken _ _ _ _ _ _ hdraw
          have hnd2 : (acc ++ [pos]).Nodup := by
            rw [List.nodup_append]
            exact ⟨hnd, List.nodup_singleton _, by simpa using hfresh⟩
          obtain ⟨hl, hn⟩ := ih _ _ _ _ h hnd2
          refine ⟨?_, hn⟩
          rw [hl, List.length_append]
          simp
          omega

theorem genPositions_spec (fuel s0 textLen count : Nat) (ps : List Nat)
    (h : genPositions fuel s0 textLen count = some ps) :
    ps.length = count ∧ ps.Nodup := by
  have := genPositionsAux_spec textLen fuel count 0 s0 [] ps h (List.nodup_nil)
  simpa using this

theorem sortPositionsDesc_sorted (ps : List Nat) :
    List.Sorted (· ≥ ·) (sortPositionsDesc ps) :=
  List.sorted_insertionSort _ ps

theorem sortPositionsDesc_perm (ps : List Nat) : (sortPositionsDesc ps).Perm ps :=
  List.perm_insertionSort _ ps

theorem sortPositionsDesc_reverse_ascending (ps : List Nat) (hnd : ps.Nodup) :
    List.Pairwise (· < ·) (sortPositionsDesc ps).reverse := by
  rw [List.pairwise_reverse]
  have h1 : List.Pairwise (· ≥ ·) (sortPositionsDesc ps) := sortPositionsDesc_sorted ps
  have h2 : (sortPositionsDesc ps).Nodup := ((sortPositionsDesc_perm ps).nodup_iff).mpr hnd
  exact (h1.and h2).imp fun hab => by omega

/-! ## Lemmas: watermark insertion preserves carrier and watermark -/

theorem insertWatermarkRandomly_filter (text : String) (wm : List Char)
    (seed : Option Nat) (now fuel : Nat) (out : String)
    (hout : insertWatermarkRandomly text wm seed now fuel = some out)
    (hwm : ∀ c ∈ wm, isZeroWidth c = true)
    (hclean : text.data.filter isZeroWidth = []) :
    out.data.filter isZeroWidth = wm ∧
    out.data.filter (fun c => ¬ isZeroWidth c) = text.data := by
  have hcleanall : ∀ c ∈ text.data, ¬ isZeroWidth c = true := by
    intro c hc
    exact (List.filter_eq_nil_iff.mp hclean) c hc
  have hcompl : ∀ (l : List Char), (∀ c ∈ l, ¬ isZeroWidth c = true) →
      l.filter (fun c => ¬ isZeroWidth c) = l := by
    intro l hl
    apply List.filter_eq_self.mpr
    intro c hc
    simpa using hl c hc
  unfold insertWatermarkRandomly at hout
  split at hout
  · next hlen =>
      injection hout with hout
      subst hout
      have hwmnil : wm = [] := List.length_eq_zero.mp hlen
      subst hwmnil
      exact ⟨hclean, hcompl _ hcleanall⟩
  · next hlen =>
      split at hout
      · exact absurd hout (by simp)
      · next ps hps =>
          injection hout with hout
          subst hout
          obtain ⟨hpl, hpnd⟩ := genPositions_spec _ _ _ _ _ hps
          set sd := sortPositionsDesc ps with hsd
          have hsdlen : sd.length = wm.length := by
            rw [(sortPositionsDesc_perm ps).length_eq, hpl]
          have hasc : List.Pairwise (· < ·) sd.reverse :=
            sortPositionsDesc_reverse_ascending ps hpnd
          have hzlen : (sd.reverse.zip wm).length = wm.length := by
            rw [List.length_zip, List.length_reverse, hsdlen]
            simp
          have heq := insertAtSorted_eq_insertPairs text.data wm sd hsdlen
          show (insertAtSorted text.data wm sd).filter isZeroWidth = wm ∧
            (insertAtSorted text.data wm sd).filter (fun c => ¬ isZeroWidth c) = text.data
          rw [heq]
          have hpairsfst : List.Pairwise (fun a b => a.1 < b.1) (sd.reverse.zip wm) := by
            rw [List.pairwise_iff_getElem] at hasc ⊢
            intro i j hi hj hij
            have hi2 : i < sd.reverse.length := by
              rw [List.length_reverse, hsdlen]
              omega
            have hj2 : j < sd.reverse.length := by
              rw [List.length_reverse, hsdlen]
              omega
            rw [List.getElem_zip, List.getElem_zip]
            exact hasc i j hi2 hj2 hij
          have hsnd : ∀ pc ∈ sd.reverse.zip wm, isZeroWidth pc.2 = true := by
            intro pc hpc
            obtain ⟨p, c⟩ := pc
            exact hwm c (List.of_mem_zip hpc).2
          constructor
          · rw [filter_insertPairs_pos isZeroWidth _ text.data 0 hpairsfst
              (fun pc _ => Nat.zero_le _) hsnd (Nat.zero_le _) (by simpa using hclean)]
            rw [hclean, List.map_snd_zip _ _ (by rw [List.length_reverse, hsdlen]),
              List.nil_append]
          · rw [filter_insertPairs_neg _ _ _ (fun pc hpc => by simp [hsnd pc hpc])]
            exact hcompl _ hcleanall

/-! ## Lemmas: the four zero-width alphabets -/

theorem zwOfHexUpper_isZeroWidth (c z : Char) (h : zwOfHexUpper c = some z) :
    isZeroWidth z = true := by
  unfold zwOfHexUpper at h
  split at h <;> first
    | (injection h with h2; subst h2; decide)
    | injection h

theorem binaryZwChar_isZeroWidth : ∀ b, isZeroWidth (binaryZwChar b) = true := by decide

theorem base4Char_isZeroWidth (n : Nat) : isZeroWidth (base4Char n) = true := by
  unfold base4Char
  split <;> decide

theorem base8Char_isZeroWidth (n : Nat) : isZeroWidth (base8Char n) = true := by
  unfold base8Char
  split <;> decide

theorem encodeToZeroWidth_all_zw (hex : List Char) :
    ∀ c ∈ encodeToZeroWidth hex, isZeroWidth c = true := by
  intro c hc
  obtain ⟨a, _, ha⟩ := List.mem_filterMap.mp hc
  exact zwOfHexUpper_isZeroWidth _ _ ha

theorem encodeBitsToZeroWidth_all_zw (bits : List Bool) :
    ∀ c ∈ encodeBitsToZeroWidth bits, isZeroWidth c = true := by
  intro c hc
  obtain ⟨b, _, hb⟩ := List.mem_map.mp hc
  rw [← hb]
  exact binaryZwChar_isZeroWidth b

theorem encodeBitsToZeroWidthBase4_all_zw : ∀ (bits : List Bool),
    ∀ c ∈ encodeBitsToZeroWidthBase4 bits, isZeroWidth c = true
  | [], _, hc => absurd hc (by simp [encodeBitsToZeroWidthBase4])
  | [b0], c, hc => by
      simp only [encodeBitsToZeroWidthBase4, List.mem_singleton] at hc
      rw [hc]
      exact base4Char_isZeroWidth _
  | b0 :: b1 :: rest, c, hc => by
      simp only [encodeBitsToZeroWidthBase4, List.mem_cons] at hc
      rcases hc with hc | hc
      · rw [hc]
        exact base4Char_isZeroWidth _
      · exact encodeBitsToZeroWidthBase4_all_zw rest c hc

theorem encodeBitsToZeroWidthBase8_all_zw : ∀ (bits : List Bool),
    ∀ c ∈ encodeBitsToZeroWidthBase8 bits, isZeroWidth c = true
  | [], _, hc => absurd hc (by simp [encodeBitsToZeroWidthBase8])
  | [b0], c, hc => by
      simp only [encodeBitsToZeroWidthBase8, List.mem_singleton] at hc
      rw [hc]
      exact base8Char_isZeroWidth _
  | [b0, b1], c, hc => by
      simp only [encodeBitsToZeroWidthBase8, List.mem_singleton] at hc
      rw [hc]
      exact base8Char_isZeroWidth _
  | b0 :: b1 :: b2 :: rest, c, hc => by
      simp only [encodeBitsToZeroWidthBase8, List.mem_cons] at hc
      rcases hc with hc | hc
      · rw [hc]
        exact base8Char_isZeroWidth _
      · exact encodeBitsToZeroWidthBase8_all_zw rest c hc

set_option maxRecDepth 4000 in
theorem hex_byte_pipeline : ∀ b, b < 256 →
    (encodeToZeroWidth (bytesToHex [b])).length = 2 ∧
    (decodeFromZeroWidth (encodeToZeroWidth (bytesToHex [b]))).length = 2 ∧
    hexToBytes (decodeFromZeroWidth (encodeToZeroWidth (bytesToHex [b]))) = [b] := by decide

theorem bytesToHex_cons (b : Nat) (bs : List Nat) :
    bytesToHex (b :: bs) = bytesToHex [b] ++ bytesToHex bs := by
  simp [bytesToHex]

theorem encodeToZeroWidth_append (l1 l2 : List Char) :
    encodeToZeroWidth (l1 ++ l2) = encodeToZeroWidth l1 ++ encodeToZeroWidth l2 :=
  List.filterMap_append _ _ _

theorem decodeFromZeroWidth_append (l1 l2 : List Char) :
    decodeFromZeroWidth (l1 ++ l2) = decodeFromZeroWidth l1 ++ decodeFromZeroWidth l2 :=
  List.filterMap_append _ _ _

theorem hexToBytes_append_two (l1 l2 : List Char) (h : l1.length = 2) :
    hexToBytes (l1 ++ l2) = hexToBytes l1 ++ hexToBytes l2 := by
  obtain ⟨a, b, rfl⟩ := List.length_eq_two.mp h
  rfl

theorem hex_pipeline (bytes : List Nat) (h : ∀ b ∈ bytes, b < 256) :
    (encodeToZeroWidth (bytesToHex bytes)).length = 2 * bytes.length ∧
    (decodeFromZeroWidth (encodeToZeroWidth (bytesToHex bytes))).length = 2 * bytes.length ∧
    hexToBytes (decodeFromZeroWidth (encodeToZeroWidth (bytesToHex bytes))) = bytes := by
  induction bytes with
  | nil => exact ⟨rfl, rfl, rfl⟩
  | cons b bs ih =>
      have hb := h b (List.mem_cons_self _ _)
      obtain ⟨h1, h2, h3⟩ := hex_byte_pipeline b hb
      obtain ⟨ih1, ih2, ih3⟩ := ih fun x hx => h x (List.mem_cons_of_mem _ hx)
      rw [bytesToHex_cons, encodeToZeroWidth_append, decodeFromZeroWidth_append]
      refine ⟨?_, ?_, ?_⟩
      · rw [List.length_append, h1, ih1, List.length_cons]
        ring
      · rw [List.length_append, h2, ih2, List.length_cons]
        ring
      · rw [hexToBytes_append_two _ _ h2, h3, ih3]
        rfl

theorem binary_round (bits : List Bool) :
    decodeZeroWidthToBits (encodeBitsToZeroWidth bits) = bits := by
  unfold decodeZeroWidthToBits encodeBitsToZeroWidth
  rw [List.filterMap_map]
  have hfn : (binaryCharToBit ∘ binaryZwChar) = some := funext fun b => by cases b <;> decide
  rw [hfn, List.filterMap_some]

theorem base4_char_round (b0 b1 : Bool) :
    base4CharToBits (base4Char (2 * (if b0 then 1 else 0) + (if b1 then 1 else 0))) =
      some [b0, b1] := by
  cases b0 <;> cases b1 <;> decide

theorem base4_round : ∀ (bits : List Bool), bits.length % 2 = 0 →
    decodeZeroWidthBase4ToBits (encodeBitsToZeroWidthBase4 bits) = bits
  | [], _ => rfl
  | [b0], h => absurd h (by simp)
  | b0 :: b1 :: rest, h => by
      have ih := base4_round rest (by
        simp only [List.length_cons] at h
        omega)
      show decodeZeroWidthBase4ToBits (base4Char _ :: encodeBitsToZeroWidthBase4 rest) = _
      unfold decodeZeroWidthBase4ToBits
      rw [List.filterMap_cons_some (base4_char_round b0 b1), List.flatten_cons]
      unfold decodeZeroWidthBase4ToBits at ih
      rw [ih]
      rfl

theorem base8_char_round (b0 b1 b2 : Bool) :
    base8CharToBits (base8Char (4 * (if b0 then 1 else 0) + 2 * (if b1 then 1 else 0) +
      (if b2 then 1 else 0))) = some [b0, b1, b2] := by
  cases b0 <;> cases b1 <;> cases b2 <;> decide

theorem base8_round : ∀ (bits : List Bool),
    decodeZeroWidthBase8ToBits (encodeBitsToZeroWidthBase8 bits) =
      bits ++ List.replicate ((3 - bits.length % 3) % 3) false
  | [] => rfl
  | [b0] => by
      show decodeZeroWidthBase8ToBits [base8Char _] = _
      unfold decodeZeroWidthBase8ToBits
      rw [List.filterMap_cons_some (by
        simpa using base8_char_round b0 false false)]
      rfl
  | [b0, b1] => by
      show decodeZeroWidthBase8ToBits [base8Char _] = _
      unfold decodeZeroWidthBase8ToBits
      rw [List.filterMap_cons_some (by
        simpa using base8_char_round b0 b1 false)]
      rfl
  | b0 :: b1 :: b2 :: rest => by
      have ih := base8_round rest
      show decodeZeroWidthBase8ToBits (base8Char _ :: encodeBitsToZeroWidthBase8 rest) = _
      unfold decodeZeroWidthBase8ToBits
      rw [List.filterMap_cons_some (base8_char_round b0 b1 b2), List.flatten_cons]
      unfold decodeZeroWidthBase8ToBits at ih
      rw [ih]
      have hm : (b0 :: b1 :: b2 :: rest).length % 3 = rest.length % 3 := by
        simp only [List.length_cons]
        omega
      rw [hm]
      rfl

/-! ## Text-codec round trip -/

theorem bytesToBitString_length (bytes : List Nat) (h : ∀ b ∈ bytes, b < 256) :
    (bytesToBitString bytes).length = 8 * bytes.length :=
  flatMap_byteToBits8_length bytes h

theorem bitsToBytes_bytesToBitString (bytes : List Nat) (h : ∀ b ∈ bytes, b < 256) :
    bitsToBytes (bytesToBitString bytes) = bytes :=
  bitsToBytes_flatMap_byteToBits8 bytes h

theorem numberToFixedBits32_length (n : Nat) : (numberToFixedBits32 n).length = 32 := by
  unfold numberToFixedBits32
  exact padStartB_length 32 _ (natToBin_length 32 _ (Nat.mod_lt _ (by norm_num))
    (by norm_num) (by norm_num))

theorem parseBin_numberToFixedBits32 (n : Nat) (h : n < 4294967296) :
    parseBin (numberToFixedBits32 n) = n := by
  unfold numberToFixedBits32
  rw [parseBin_padStartB_natToBin 32 _ (by
    have := Nat.mod_lt n (show 0 < 4294967296 by norm_num)
    omega)]
  omega

/-- Amended round trip for the text codec: for every configuration
(password bytes, seed, any of the four encodings), every carrier text free
of recognized zero-width characters, and every non-empty byte payload,
a successful watermark embedding followed by `extract` with the same
configuration returns exactly the payload bytes. -/
theorem text_roundtrip (cfg : TbwConfig) (text : String) (P : List Nat)
    (now fuel : Nat) (out : String)
    (hout : addWatermarkRandom cfg text P now fuel = some out)
    (hP : P ≠ [])
    (hPb : ∀ b ∈ P, b < 256)
    (hK : ∀ b ∈ cfg.password, b < 256)
    (hPlen : P.length < 4294967296)
    (hclean : text.data.filter isZeroWidth = []) :
    extract cfg out = .ok P := by
  obtain ⟨pw, seed, enc⟩ := cfg
  simp only at hK
  set ew := xorCrypt P pw with hew
  have hewlen : ew.length = P.length := xorCrypt_length _ _
  have hewb : ∀ b ∈ ew, b < 256 := xorCrypt_lt_256 P pw hPb hK
  have hewpos : 0 < ew.length := by
    rw [hewlen]
    rcases P with _ | ⟨x, xs⟩
    · exact absurd rfl hP
    · simp
  have hxor : xorCrypt ew pw = P := xorCrypt_xorCrypt P pw
  cases enc with
  | hex =>
      simp only [addWatermarkRandom, ← hew] at hout
      obtain ⟨hzw, _⟩ := insertWatermarkRandomly_filter _ _ _ _ _ _ hout
        (encodeToZeroWidth_all_zw _) hclean
      obtain ⟨hlen1, hlen2, hdec⟩ := hex_pipeline ew hewb
      simp only [extract, extractZeroWidthChars]
      rw [hzw, hlen1]
      rw [if_neg (by omega)]
      rw [if_neg (by rw [hlen2]; omega)]
      rw [hdec, hxor]
  | binary =>
      simp only [addWatermarkRandom, ← hew] at hout
      obtain ⟨hzw, _⟩ := insertWatermarkRandomly_filter _ _ _ _ _ _ hout
        (encodeBitsToZeroWidth_all_zw _) hclean
      have hbits : decodeZeroWidthToBits (encodeBitsToZeroWidth (bytesToBitString ew)) =
        bytesToBitString ew := binary_round _
      have hblen : (bytesToBitString ew).length = 8 * ew.length := bytesToBitString_length ew hewb
      simp only [extract, extractZeroWidthChars]
      rw [hzw]
      rw [if_neg (by
        intro hc
        rw [List.length_eq_zero] at hc
        rw [hc] at hbits
        have : (bytesToBitString ew).length = 0 := by
          rw [← hbits]
          rfl
        omega)]
      rw [hbits]
      rw [if_neg (by rw [hblen]; omega)]
      rw [bitsToBytes_bytesToBitString ew hewb, hxor]
  | base4 =>
      simp only [addWatermarkRandom, ← hew] at hout
      obtain ⟨hzw, _⟩ := insertWatermarkRandomly_filter _ _ _ _ _ _ hout
        (encodeBitsToZeroWidthBase4_all_zw _) hclean
      have hblen : (bytesToBitString ew).length = 8 * ew.length := bytesToBitString_length ew hewb
      have hbits : decodeZeroWidthBase4ToBits (encodeBitsToZeroWidthBase4 (bytesToBitString ew)) =
        bytesToBitString ew := base4_round _ (by omega)
      simp only [extract, extractZeroWidthChars]
      rw [hzw]
      rw [if_neg (by
        intro hc
        rw [List.length_eq_zero] at hc
        rw [hc] at hbits
        have : (bytesToBitString ew).length = 0 := by
          rw [← hbits]
          rfl
        omega)]
      rw [hbits]
      rw [if_neg (by rw [hblen]; omega)]
      rw [bitsToBytes_bytesToBitString ew hewb, hxor]
  | base8 =>
      simp only [addWatermarkRandom, ← hew] at hout
      obtain ⟨hzw, _⟩ := insertWatermarkRandomly_filter _ _ _ _ _ _ hout
        (encodeBitsToZeroWidthBase8_all_zw _) hclean
      have hblen : (bytesToBitString ew).length = 8 * ew.length := bytesToBitString_length ew hewb
      have hhlen : (numberToFixedBits32 ew.length).length = 32 := numberToFixedBits32_length _
      have hbits := base8_round (numberToFixedBits32 ew.length ++ bytesToBitString ew)
      simp only [extract, extractZeroWidthChars]
      rw [hzw, hbits]
      have htotal : (numberToFixedBits32 ew.length ++ bytesToBitString ew).length =
          32 + 8 * ew.length := by
        rw [List.length_append, hhlen, hblen]
      rw [if_neg (by
        intro hc
        rw [List.length_eq_zero] at hc
        rw [hc] at hbits
        have hz : (numberToFixedBits32 ew.length ++ bytesToBitString ew ++
            List.replicate ((3 - (numberToFixedBits32 ew.length ++
              bytesToBitString ew).length % 3) % 3) false).length = 0 := by
          rw [← hbits]
          rfl
        rw [List.length_append, htotal, List.length_replicate] at hz
        omega)]
      rw [if_neg (by
        rw [List.length_append, htotal, List.length_replicate]
        omega)]
      have htake : ((numberToFixedBits32 ew.length ++ bytesToBitString ew) ++
          List.replicate ((3 - (numberToFixedBits32 ew.length ++
            bytesToBitString ew).length % 3) % 3) false).take 32 =
          numberToFixedBits32 ew.length := by
        rw [List.append_assoc, ← hhlen, List.take_left]
      rw [htake, parseBin_numberToFixedBits32 ew.length (by omega)]
      have hdrop : ((numberToFixedBits32 ew.length ++ bytesToBitString ew) ++
          List.replicate ((3 - (numberToFixedBits32 ew.length ++
            bytesToBitString ew).length % 3) % 3) false).drop 32 =
          bytesToBitString ew ++ List.replicate ((3 - (numberToFixedBits32 ew.length ++
            bytesToBitString ew).length % 3) % 3) false := by
        rw [List.append_assoc, ← hhlen, List.drop_left]
      rw [hdrop]
      have htake2 : (bytesToBitString ew ++ List.replicate ((3 - (numberToFixedBits32 ew.length ++
          bytesToBitString ew).length % 3) % 3) false).take (ew.length * 8) =
          bytesToBitString ew := by
        rw [show ew.length * 8 = (bytesToBitString ew).length by omega,
          List.take_left]
      rw [htake2]
      rw [if_neg (by rw [hblen]; omega)]
      rw [bitsToBytes_bytesToBitString ew hewb, hxor]

/-! ## Claim theorems: text codec -/

/-- C2 (counterexample): with the empty payload, `addWatermarkRandom`
inserts nothing, and `extract` on the result raises `NotFoundError` instead
of returning the empty payload, refuting the unrestricted round-trip claim
at `T = "a"`, `P = []`, password `[1]`. -/
theorem C2_counterexample :
    addWatermarkRandom ⟨[1], some 1, WmEncoding.hex⟩ "a" [] 0 1000 = some "a" ∧
    extract ⟨[1], some 1, WmEncoding.hex⟩ "a" = .error .notFound := by
  constructor
  · rfl
  · decide

/-- C2 (amended): for every configuration (password bytes below 256, any
seed, any of the four encodings), every carrier text containing no
recognized zero-width character, and every non-empty byte payload (bytes
below 256, fewer than 2^32 of them), a successful `addWatermarkRandom`
followed by `extract` with the same configuration returns exactly the
payload. -/
theorem C2_text_roundtrip (cfg : TbwConfig) (text : String) (P : List Nat)
    (now fuel : Nat) (out : String)
    (hout : addWatermarkRandom cfg text P now fuel = some out)
    (hP : P ≠ [])
    (hPb : ∀ b ∈ P, b < 256)
    (hK : ∀ b ∈ cfg.password, b < 256)
    (hPlen : P.length < 4294967296)
    (hclean : text.data.filter isZeroWidth = []) :
    extract cfg out = .ok P :=
  text_roundtrip cfg text P now fuel out hout hP hPb hK hPlen hclean

/-- C2 (witness): the round trip evaluated at a concrete carrier, payload
and password. -/
theorem C2_witness :
    extract ⟨[1], some 1, WmEncoding.hex⟩ "\u200Bh\u2063i" = .ok [5] :=
  C2_text_roundtrip ⟨[1], some 1, WmEncoding.hex⟩ "hi" [5] 0 1000 "\u200Bh\u2063i"
    (by decide) (by decide) (by decide) (by decide) (by decide) (by decide)

/-- C3 (counterexample): a carrier that itself contains a recognized
zero-width character is not returned intact by
`removeWatermark ∘ addWatermarkRandom`: with `T = "\u200B"` (a single
ZWSP) and the empty payload the carrier is returned unchanged by
`addWatermarkRandom`, and `removeWatermark` then strips the carrier's own
character. -/
theorem C3_counterexample :
    addWatermarkRandom ⟨[1], some 1, WmEncoding.hex⟩ "\u200B" [] 0 1000 = some "\u200B" ∧
    removeWatermark "\u200B" ≠ "\u200B" := by
  constructor
  · rfl
  · decide

/-- C3 (amended): for every configuration and payload, if the carrier text
contains no recognized zero-width character, `removeWatermark` applied to
a successful `addWatermarkRandom` output returns exactly the carrier. -/
theorem C3_carrier_preserved (cfg : TbwConfig) (text : String) (P : List Nat)
    (now fuel : Nat) (out : String)
    (hout : addWatermarkRandom cfg text P now fuel = some out)
    (hclean : text.data.filter isZeroWidth = []) :
    removeWatermark out = text := by
  obtain ⟨pw, seed, enc⟩ := cfg
  apply String.ext
  show out.data.filter (fun c => ¬ isZeroWidth c) = text.data
  cases enc with
  | hex =>
      simp only [addWatermarkRandom] at hout
      exact (insertWatermarkRandomly_filter _ _ _ _ _ _ hout
        (encodeToZeroWidth_all_zw _) hclean).2
  | binary =>
      simp only [addWatermarkRandom] at hout
      exact (insertWatermarkRandomly_filter _ _ _ _ _ _ hout
        (encodeBitsToZeroWidth_all_zw _) hclean).2
  | base4 =>
      simp only [addWatermarkRandom] at hout
      exact (insertWatermarkRandomly_filter _ _ _ _ _ _ hout
        (encodeBitsToZeroWidthBase4_all_zw _) hclean).2
  | base8 =>
      simp only [addWatermarkRandom] at hout
      exact (insertWatermarkRandomly_filter _ _ _ _ _ _ hout
        (encodeBitsToZeroWidthBase8_all_zw _) hclean).2

/-- C3 (witness): carrier restoration evaluated at a concrete input. -/
theorem C3_witness : removeWatermark "\u200Bh\u2063i" = "hi" :=
  C3_carrier_preserved ⟨[1], some 1, WmEncoding.hex⟩ "hi" [5] 0 1000 "\u200Bh\u2063i"
    (by decide) (by decide)

/-- The extracted hex string is as long as the zero-width subsequence:
every recognized zero-width character is in `CHAR_TO_HEX`. -/
theorem charToHex_isSome_of_zw (c : Char) (hc : isZeroWidth c = true) :
    (charToHex c).isSome = true := by
  have hmem : c ∈ allZeroWidthChars := by
    unfold isZeroWidth at hc
    exact List.mem_of_elem_eq_true hc
  have hall : ∀ x ∈ allZeroWidthChars, (charToHex x).isSome = true := by decide
  exact hall c hmem

theorem length_filterMap_of_isSome (f : Char → Option Char) (l : List Char)
    (h : ∀ c ∈ l, (f c).isSome = true) : (l.filterMap f).length = l.length := by
  induction l with
  | nil => rfl
  | cons c cs ih =>
      obtain ⟨z, hz⟩ := Option.isSome_iff_exists.mp (h c (List.mem_cons_self _ _))
      rw [List.filterMap_cons_some hz, List.length_cons, List.length_cons,
        ih fun x hx => h x (List.mem_cons_of_mem _ hx)]

theorem decodeFromZeroWidth_length_of_zw (zw : List Char)
    (h : ∀ c ∈ zw, isZeroWidth c = true) :
    (decodeFromZeroWidth zw).length = zw.length :=
  length_filterMap_of_isSome charToHex zw fun c hc => charToHex_isSome_of_zw c (h c hc)

/-- C6: decoding with a wrong password never raises where decoding with the
right one succeeds — `extract`'s success or failure (and which error it
raises) is entirely independent of the configured password — and at the
spec's concrete case (carrier `"Secure text"`, payload `"Secret"`, encode
password `"test_password"`, decode password `"wrong_password"`) extraction
succeeds and returns bytes different from the payload. -/
theorem C6_wrong_password :
    (∀ (s : String) (k1 k2 : List Nat) (sd1 sd2 : Option Nat) (e : WmEncoding),
      (extract ⟨k1, sd1, e⟩ s).isOk = (extract ⟨k2, sd2, e⟩ s).isOk) ∧
    (addWatermarkRandom ⟨utf8Bytes "test_password", some 3, WmEncoding.hex⟩
        "Secure text" (utf8Bytes "Secret") 0 5000 =
      some "Se\u2061\u200C\u200B\u200Bc\u2060\u200Bu\u200Bre\uFEFF\u2062\u180C \u200Bt\u2063ext" ∧
     extract ⟨utf8Bytes "wrong_password", some 3, WmEncoding.hex⟩
        "Se\u2061\u200C\u200B\u200Bc\u2060\u200Bu\u200Bre\uFEFF\u2062\u180C \u200Bt\u2063ext" =
       .ok [80, 114, 127, 104, 93, 91] ∧
     ([80, 114, 127, 104, 93, 91] : List Nat) ≠ utf8Bytes "Secret") := by
  refine ⟨?_, by decide, by decide, by decide⟩
  intro s k1 k2 sd1 sd2 e
  cases e <;> simp only [extract] <;>
    (split
     · rfl
     · (split
        · rfl
        · first
          | rfl
          | (split
             · rfl
             · rfl)))

/-- C7 (counterexample): in `binary` mode, the input `"\u2060"` (a word
joiner) contains a recognized zero-width character and decodes to the
empty bit string — whose length 0 is divisible by the unit size 8 — yet
`extract` raises `MalformedWatermarkError`, refuting the claimed exact
characterization of the raise conditions. -/
theorem C7_counterexample :
    extractZeroWidthChars "\u2060" ≠ [] ∧
    (decodeZeroWidthToBits (extractZeroWidthChars "\u2060")).length % 8 = 0 ∧
    extract ⟨[1], none, WmEncoding.binary⟩ "\u2060" = .error .malformed := by
  refine ⟨by decide, by decide, by decide⟩

/-- C7 (amended): in the default `hex` mode the characterization is exact:
`extract` raises `NotFoundError` precisely when the input has no
recognized zero-width character, raises `MalformedWatermarkError`
precisely when such characters are present but decode to an odd number of
hex digits, and succeeds otherwise; the bit modes (`binary`, `base4`,
`base8`) have additional raise conditions (an empty decoded bit string,
and `base8`'s length-prefix check). -/
theorem C7_hex_error_trichotomy (pw : List Nat) (sd : Option Nat) (s : String) :
    (extract ⟨pw, sd, WmEncoding.hex⟩ s = .error .notFound ↔
      (extractZeroWidthChars s).length = 0) ∧
    (extract ⟨pw, sd, WmEncoding.hex⟩ s = .error .malformed ↔
      ((extractZeroWidthChars s).length ≠ 0 ∧
        (decodeFromZeroWidth (extractZeroWidthChars s)).length % 2 = 1)) ∧
    ((extract ⟨pw, sd, WmEncoding.hex⟩ s).isOk = true ↔
      ((extractZeroWidthChars s).length ≠ 0 ∧
        (decodeFromZeroWidth (extractZeroWidthChars s)).length % 2 = 0)) := by
  have hzw : ∀ c ∈ extractZeroWidthChars s, isZeroWidth c = true := by
    intro c hc
    exact List.of_mem_filter hc
  have hlen : (decodeFromZeroWidth (extractZeroWidthChars s)).length =
    (extractZeroWidthChars s).length := decodeFromZeroWidth_length_of_zw _ hzw
  simp only [extract]
  by_cases h0 : (extractZeroWidthChars s).length = 0
  · rw [if_pos h0]
    refine ⟨by simp [h0], ?_, ?_⟩
    · constructor
      · intro hh
        exact absurd hh (by simp)
      · rintro ⟨hz, _⟩
        exact absurd h0 hz
    · constructor
      · intro hh
        exact absurd hh (by simp [Except.isOk, Except.toBool])
      · rintro ⟨hz, _⟩
        exact absurd h0 hz
  · rw [if_neg h0]
    by_cases h2 : (decodeFromZeroWidth (extractZeroWidthChars s)).length = 0 ∨
      (decodeFromZeroWidth (extractZeroWidthChars s)).length % 2 ≠ 0
    · rw [if_pos h2]
      rw [hlen] at h2
      refine ⟨by simp [h0], ?_, ?_⟩
      · constructor
        · intro _
          refine ⟨h0, ?_⟩
          rw [hlen]
          omega
        · intro _
          rfl
      · constructor
        · intro hh
          exact absurd hh (by simp [Except.isOk, Except.toBool])
        · rintro ⟨_, hmod⟩
          rw [hlen] at hmod
          omega
    · rw [if_neg h2]
      rw [hlen] at h2
      refine ⟨by simp [h0], ?_, ?_⟩
      · constructor
        · intro hh
          exact absurd hh (by simp)
        · rintro ⟨_, hmod⟩
          rw [hlen] at hmod
          omega
      · constructor
        · intro _
          refine ⟨h0, ?_⟩
          rw [hlen]
          omega
        · intro _
          rfl

/-- C9: with an explicitly configured seed, `addWatermarkRandom` does not
depend on the clock (`Date.now()`, the `now` argument): two calls with the
same seed, password, encoding, carrier and payload produce identical
output, whatever the two clock readings are. -/
theorem C9_seed_determinism (pw : List Nat) (s : Nat) (e : WmEncoding)
    (text : String) (P : List Nat) (now1 now2 fuel : Nat) :
    addWatermarkRandom ⟨pw, some s, e⟩ text P now1 fuel =
      addWatermarkRandom ⟨pw, some s, e⟩ text P now2 fuel := rfl

/-- C10 (counterexample): in `base8` mode an empty payload still inserts
eleven zero-width characters (the 32-bit length prefix, three bits per
character), so the output differs from the carrier. -/
theorem C10_counterexample :
    addWatermarkRandom ⟨[7], some 1, WmEncoding.base8⟩ "a" [] 0 2000 =
      some "\u200B\u200B\u200B\u200B\u200B\u200B\u200B\u200B\u200B\u200B\u200Ba" ∧
    ("\u200B\u200B\u200B\u200B\u200B\u200B\u200B\u200B\u200B\u200B\u200Ba" : String) ≠ "a" := by
  constructor
  · decide
  · decide

/-- C10 (amended): in the `hex`, `binary` and `base4` encodings (not
`base8`, whose length prefix is always embedded), an empty payload leaves
the carrier completely unchanged, and a subsequent `extract` on the result
raises `NotFoundError` whenever the carrier contains no recognized
zero-width character. -/
theorem C10_empty_payload (pw : List Nat) (sd : Option Nat) (e : WmEncoding)
    (he : e ≠ WmEncoding.base8) (text : String) (now fuel : Nat) :
    addWatermarkRandom ⟨pw, sd, e⟩ text [] now fuel = some text ∧
    (text.data.filter isZeroWidth = [] →
      extract ⟨pw, sd, e⟩ text = .error .notFound) := by
  have hext : text.data.filter isZeroWidth = [] →
      extract ⟨pw, sd, e⟩ text = .error .notFound := by
    intro hcl
    have h0 : (extractZeroWidthChars text).length = 0 := by
      show (text.data.filter isZeroWidth).length = 0
      rw [hcl]
      rfl
    cases e <;> simp only [extract] <;> rw [if_pos h0]
  cases e with
  | hex => exact ⟨rfl, hext⟩
  | binary => exact ⟨rfl, hext⟩
  | base4 => exact ⟨rfl, hext⟩
  | base8 => exact absurd rfl he

/-- C10 (witness): the empty-payload behavior evaluated at a concrete
carrier in the default `hex` mode. -/
theorem C10_witness :
    addWatermarkRandom ⟨[9], none, WmEncoding.hex⟩ "x" [] 0 50 = some "x" ∧
    extract ⟨[9], none, WmEncoding.hex⟩ "x" = .error .notFound := by
  obtain ⟨h1, h2⟩ := C10_empty_payload [9] none WmEncoding.hex (by decide) "x" 0 50
  exact ⟨h1, h2 (by decide)⟩

/-! ## Lemmas: the LSB bit stream of a pixel buffer -/

theorem setLSB_div2 (x : Nat) (b : Bool) : setLSB x b / 2 = x / 2 := by
  cases b <;> simp [setLSB] <;> omega

theorem setLSB_lsb (x : Nat) (b : Bool) : lsbAt [setLSB x b] 0 = b := by
  cases b <;> simp [setLSB, lsbAt] <;> omega

theorem lsbAt_cons4 (r g b a : Nat) (rest : List Nat) (k : Nat) :
    lsbAt (r :: g :: b :: a :: rest) (k + 4) = lsbAt rest k := rfl

theorem lsbStream_length (data : List Nat) (h4 : data.length % 4 = 0) :
    (lsbStream data).length = 3 * (data.length / 4) := by
  match data, h4 with
  | [], _ => rfl
  | [r], h4 => simp at h4
  | [r, g], h4 => simp at h4
  | [r, g, b], h4 => simp at h4
  | r :: g :: b :: a :: rest, h4 =>
      have h4r : rest.length % 4 = 0 := by
        simp only [List.length_cons] at h4
        omega
      show (lsbStream rest).length + 1 + 1 + 1 = _
      rw [lsbStream_length rest h4r]
      simp only [List.length_cons]
      omega

theorem lsbStream_getD (data : List Nat) (h4 : data.length % 4 = 0) :
    ∀ bIdx, bIdx < 3 * (data.length / 4) →
    (lsbStream data).getD bIdx false = lsbAt data (bIdx / 3 * 4 + bIdx % 3) := by
  match data, h4 with
  | [], _ => intro bIdx hb; simp at hb
  | [r], h4 => simp at h4
  | [r, g], h4 => simp at h4
  | [r, g, b], h4 => simp at h4
  | r :: g :: b :: a :: rest, h4 =>
      have h4r : rest.length % 4 = 0 := by
        simp only [List.length_cons] at h4
        omega
      intro bIdx hb
      match bIdx with
      | 0 => rfl
      | 1 => rfl
      | 2 => rfl
      | k + 3 =>
          have hk : k < 3 * (rest.length / 4) := by
            simp only [List.length_cons] at hb
            omega
          show (lsbStream rest).getD k false = _
          rw [lsbStream_getD rest h4r k hk]
          have h1 : (k + 3) / 3 * 4 + (k + 3) % 3 = (k / 3 * 4 + k % 3) + 4 := by omega
          rw [h1, lsbAt_cons4]

/-! ## Lemmas: the extraction loops read the LSB stream -/

theorem readChannelsAux_eq (data : List Nat) (i : Nat) :
    ∀ (rem ch bi target : Nat),
    readChannelsAux data i rem ch bi target =
      (List.range (min rem (min (3 - ch) (target - bi)))).map
        fun k => lsbAt data (i + ch + k) := by
  intro rem
  induction rem with
  | zero =>
      intro ch bi target
      simp [readChannelsAux]
  | succ rem ih =>
      intro ch bi target
      rw [readChannelsAux]
      split
      · next hcond =>
          have hm : min (rem + 1) (min (3 - ch) (target - bi)) =
              min rem (min (3 - (ch + 1)) (target - (bi + 1))) + 1 := by omega
          rw [hm, List.range_succ_eq_map, List.map_cons, List.map_map, ih]
          show lsbAt data (i + ch) :: _ = lsbAt data (i + ch + 0) :: _
          rw [Nat.add_zero]
          congr 1
          apply List.map_congr_left
          intro k _
          show lsbAt data (i + (ch + 1) + k) = lsbAt data (i + ch + Nat.succ k)
          congr 1
          omega
      · next hcond =>
          have hm : min (rem + 1) (min (3 - ch) (target - bi)) = 0 := by omega
          rw [hm]
          rfl

theorem readChannels_eq (data : List Nat) (i bi target : Nat) :
    readChannels data i bi target =
      (List.range (min (3 - bi % 3) (target - bi))).map
        fun k => lsbAt data (i + bi % 3 + k) := by
  unfold readChannels
  rw [readChannelsAux_eq]
  have hmin : min 3 (min (3 - bi % 3) (target - bi)) =
      min (3 - bi % 3) (target - bi) := by omega
  rw [hmin]

theorem readChannels_take (data : List Nat) (h4 : data.length % 4 = 0) (bi target : Nat)
    (hi : bi / 3 * 4 < data.length) :
    readChannels data (bi / 3 * 4) bi target =
      ((lsbStream data).drop bi).take (min (3 - bi % 3) (target - bi)) := by
  rw [readChannels_eq]
  have hSlen : (lsbStream data).length = 3 * (data.length / 4) := lsbStream_length data h4
  have hbound : bi + (3 - bi % 3) ≤ (lsbStream data).length := by
    rw [hSlen]
    omega
  apply List.ext_getElem
  · simp only [List.length_map, List.length_range, List.length_take, List.length_drop]
    omega
  · intro k hk1 hk2
    simp only [List.length_map, List.length_range] at hk1
    rw [List.getElem_map, List.getElem_range, List.getElem_take, List.getElem_drop]
    have hbik : bi + k < (lsbStream data).length := by omega
    have hgd : (lsbStream data)[bi + k] = (lsbStream data).getD (bi + k) false :=
      (List.getD_eq_getElem _ _ hbik).symm
    rw [hgd, lsbStream_getD data h4 (bi + k) (by omega)]
    congr 1
    omega

theorem readOuter_at_target (data : List Nat) (fuel i t : Nat) :
    readOuter data fuel i t t = [] := by
  cases fuel with
  | zero => rfl
  | succ fuel =>
      rw [readOuter]
      rw [if_neg (by omega)]

theorem readOuter_eq (data : List Nat) (h4 : data.length % 4 = 0) :
    ∀ (fuel bi target : Nat), data.length ≤ bi / 3 * 4 + 4 * fuel →
    readOuter data fuel (bi / 3 * 4) bi target =
      ((lsbStream data).drop bi).take (target - bi) := by
  intro fuel
  induction fuel with
  | zero =>
      intro bi target hlen
      have hS : (lsbStream data).drop bi = [] := by
        apply List.drop_eq_nil_of_le
        rw [lsbStream_length data h4]
        omega
      rw [hS, List.take_nil]
      rfl
  | succ fuel ih =>
      intro bi target hlen
      rw [readOuter]
      by_cases hcond : bi / 3 * 4 < data.length ∧ bi < target
      · rw [if_pos hcond]
        rw [readChannels_take data h4 bi target hcond.1]
        have hSlen : (lsbStream data).length = 3 * (data.length / 4) :=
          lsbStream_length data h4
        have hbound : bi + (3 - bi % 3) ≤ (lsbStream data).length := by
          rw [hSlen]
          omega
        set m := min (3 - bi % 3) (target - bi) with hm
        have hchunklen : (((lsbStream data).drop bi).take m).length = m := by
          simp only [List.length_take, List.length_drop]
          omega
        rw [hchunklen]
        by_cases hcase : target - bi ≤ 3 - bi % 3
        · have hmt : m = target - bi := by omega
          have hbi2 : bi + m = target := by omega
          rw [hbi2, readOuter_at_target, List.append_nil, hmt]
        · have hm3 : m = 3 - bi % 3 := by omega
          have hi4 : bi / 3 * 4 + 4 = (bi + m) / 3 * 4 := by omega
          rw [hi4, ih (bi + m) target (by omega)]
          have hdd : (List.drop bi (lsbStream data)).drop m =
              List.drop (bi + m) (lsbStream data) := by
            rw [List.drop_drop]
          have hsplit : target - bi = m + (target - bi - m) := by omega
          conv_rhs => rw [hsplit]
          rw [List.take_add, hdd]
          have htb : target - (bi + m) = target - bi - m := by omega
          rw [htb]
      · rw [if_neg hcond]
        rcases Classical.not_and_iff_or_not_not.mp hcond with hc | hc
        · have hS : (lsbStream data).drop bi = [] := by
            apply List.drop_eq_nil_of_le
            rw [lsbStream_length data h4]
            omega
          rw [hS, List.take_nil]
        · have ht : target - bi = 0 := by omega
          rw [ht]
          rfl

/-- Each resumable extraction loop reads exactly the LSB stream slice from
bit `bi` up to `target` (clipped at the end of the buffer). -/
theorem readSegment_eq (data : List Nat) (h4 : data.length % 4 = 0) (bi target : Nat) :
    readSegment data bi target = ((lsbStream data).drop bi).take (target - bi) := by
  unfold readSegment
  exact readOuter_eq data h4 data.length bi target (by omega)

/-! ## Lemmas: the embedding loop writes the LSB stream -/

theorem writeBits_length : ∀ (data : List Nat) (frame : List Bool),
    (writeBits data frame).length = data.length
  | data, [] => by simp [writeBits]
  | [], b0 :: more => rfl
  | r :: g :: b :: a :: rest, [b0] => rfl
  | r :: g :: b :: a :: rest, [b0, b1] => rfl
  | r :: g :: b :: a :: rest, b0 :: b1 :: b2 :: more => by
      show (writeBits rest more).length + 1 + 1 + 1 + 1 = _
      rw [writeBits_length rest more]
      rfl
  | [r], b0 :: more => by cases more <;> rfl
  | [r, g], [b0] => rfl
  | [r, g], b0 :: b1 :: more => rfl
  | [r, g, b], [b0] => rfl
  | [r, g, b], [b0, b1] => rfl
  | [r, g, b], b0 :: b1 :: b2 :: more => rfl

/-- Writing a frame into a pixel buffer replaces the leading frame-length
prefix of its LSB stream by the frame (clipped to the stream length) and
leaves the rest of the stream unchanged. -/
theorem lsbStream_writeBits : ∀ (data : List Nat) (frame : List Bool),
    data.length % 4 = 0 →
    lsbStream (writeBits data frame) =
      frame.take (min frame.length (3 * (data.length / 4))) ++
        (lsbStream data).drop (min frame.length (3 * (data.length / 4)))
  | data, [], h4 => by
      simp [writeBits]
  | [], b0 :: more, h4 => by
      simp [writeBits, lsbStream]
  | r :: g :: b :: a :: rest, [b0], h4 => by
      have hmin : min ([b0] : List Bool).length
          (3 * ((r :: g :: b :: a :: rest).length / 4)) = 1 := by
        simp only [List.length_cons, List.length_nil]
        omega
      rw [hmin]
      show lsbAt [setLSB r b0] 0 :: lsbAt [g] 0 :: lsbAt [b] 0 :: lsbStream rest = _
      rw [setLSB_lsb]
      rfl
  | r :: g :: b :: a :: rest, [b0, b1], h4 => by
      have hmin : min ([b0, b1] : List Bool).length
          (3 * ((r :: g :: b :: a :: rest).length / 4)) = 2 := by
        simp only [List.length_cons, List.length_nil]
        omega
      rw [hmin]
      show lsbAt [setLSB r b0] 0 :: lsbAt [setLSB g b1] 0 :: lsbAt [b] 0 :: lsbStream rest = _
      rw [setLSB_lsb, setLSB_lsb]
      rfl
  | r :: g :: b :: a :: rest, b0 :: b1 :: b2 :: more, h4 => by
      have h4r : rest.length % 4 = 0 := by
        simp only [List.length_cons] at h4
        omega
      have ih := lsbStream_writeBits rest more h4r
      show lsbAt [setLSB r b0] 0 :: lsbAt [setLSB g b1] 0 :: lsbAt [setLSB b b2] 0 ::
        lsbStream (writeBits rest more) = _
      rw [setLSB_lsb, setLSB_lsb, setLSB_lsb, ih]
      have hmin : min (b0 :: b1 :: b2 :: more).length
          (3 * ((r :: g :: b :: a :: rest).length / 4)) =
          min more.length (3 * (rest.length / 4)) + 3 := by
        simp only [List.length_cons, List.length_nil]
        omega
      rw [hmin]
      rfl
  | [r], b0 :: more, h4 => by simp at h4
  | [r, g], [b0], h4 => by simp at h4
  | [r, g], b0 :: b1 :: more, h4 => by simp at h4
  | [r, g, b], [b0], h4 => by simp at h4
  | [r, g, b], [b0, b1], h4 => by simp at h4
  | [r, g, b], b0 :: b1 :: b2 :: more, h4 => by simp at h4

/-- Writing frame bits changes no byte above its least-significant bit. -/
theorem writeBits_getD_div2 : ∀ (data : List Nat) (frame : List Bool) (j : Nat),
    (writeBits data frame).getD j 0 / 2 = data.getD j 0 / 2
  | data, [], j => by simp [writeBits]
  | [], b0 :: more, j => rfl
  | r :: g :: b :: a :: rest, [b0], j => by
      match j with
      | 0 => exact setLSB_div2 r b0
      | j + 1 => rfl
  | r :: g :: b :: a :: rest, [b0, b1], j => by
      match j with
      | 0 => exact setLSB_div2 r b0
      | 1 => exact setLSB_div2 g b1
      | j + 2 => rfl
  | r :: g :: b :: a :: rest, b0 :: b1 :: b2 :: more, j => by
      match j with
      | 0 => exact setLSB_div2 r b0
      | 1 => exact setLSB_div2 g b1
      | 2 => exact setLSB_div2 b b2
      | 3 => rfl
      | j + 4 => exact writeBits_getD_div2 rest more j
  | [r], b0 :: more, j => by
      match j with
      | 0 =>
          show (writeBits [r] (b0 :: more)).getD 0 0 / 2 = r / 2
          cases more <;> exact setLSB_div2 r b0
      | j + 1 => cases more <;> rfl
  | [r, g], [b0], j => by
      match j with
      | 0 => exact setLSB_div2 r b0
      | j + 1 => rfl
  | [r, g], b0 :: b1 :: more, j => by
      match j with
      | 0 => exact setLSB_div2 r b0
      | 1 => exact setLSB_div2 g b1
      | j + 2 => rfl
  | [r, g, b], [b0], j => by
      match j with
      | 0 => exact setLSB_div2 r b0
      | j + 1 => rfl
  | [r, g, b], [b0, b1], j => by
      match j with
      | 0 => exact setLSB_div2 r b0
      | 1 => exact setLSB_div2 g b1
      | j + 2 => rfl
  | [r, g, b], b0 :: b1 :: b2 :: more, j => by
      match j with
      | 0 => exact setLSB_div2 r b0
      | 1 => exact setLSB_div2 g b1
      | 2 => exact setLSB_div2 b b2
      | j + 3 => rfl

/-- Alpha channels (every fourth byte) are never written. -/
theorem writeBits_getD_alpha : ∀ (data : List Nat) (frame : List Bool) (j : Nat),
    j % 4 = 3 → (writeBits data frame).getD j 0 = data.getD j 0
  | data, [], j, hj => by simp [writeBits]
  | [], b0 :: more, j, hj => rfl
  | r :: g :: b :: a :: rest, [b0], j, hj => by
      match j, hj with
      | 3, _ => rfl
      | j + 4, _ => rfl
  | r :: g :: b :: a :: rest, [b0, b1], j, hj => by
      match j, hj with
      | 3, _ => rfl
      | j + 4, _ => rfl
  | r :: g :: b :: a :: rest, b0 :: b1 :: b2 :: more, j, hj => by
      match j, hj with
      | 3, _ => rfl
      | j + 4, hj =>
          exact writeBits_getD_alpha rest more j (by omega)
  | [r], b0 :: more, j, hj => by
      match j, hj with
      | 3, _ => cases more <;> rfl
      | j + 4, _ => cases more <;> rfl
  | [r, g], [b0], j, hj => by
      match j, hj with
      | 3, _ => rfl
      | j + 4, _ => rfl
  | [r, g], b0 :: b1 :: more, j, hj => by
      match j, hj with
      | 3, _ => rfl
      | j + 4, _ => rfl
  | [r, g, b], [b0], j, hj => by
      match j, hj with
      | 3, _ => rfl
      | j + 4, _ => rfl
  | [r, g, b], [b0, b1], j, hj => by
      match j, hj with
      | 3, _ => rfl
      | j + 4, _ => rfl
  | [r, g, b], b0 :: b1 :: b2 :: more, j, hj => by
      match j, hj with
      | 3, _ => rfl
      | j + 4, _ => rfl

/-- Channels whose frame-bit index lies beyond the frame are never
written. -/
theorem writeBits_getD_beyond : ∀ (data : List Nat) (frame : List Bool) (j : Nat),
    j % 4 < 3 → frame.length ≤ j / 4 * 3 + j % 4 →
    (writeBits data frame).getD j 0 = data.getD j 0
  | data, [], j, hj, hf => by simp [writeBits]
  | [], b0 :: more, j, hj, hf => rfl
  | r :: g :: b :: a :: rest, [b0], j, hj, hf => by
      match j with
      | 0 => simp at hf
      | 1 => rfl
      | 2 => rfl
      | 3 => omega
      | j + 4 => rfl
  | r :: g :: b :: a :: rest, [b0, b1], j, hj, hf => by
      match j with
      | 0 => simp at hf
      | 1 => simp at hf
      | 2 => rfl
      | 3 => omega
      | j + 4 => rfl
  | r :: g :: b :: a :: rest, b0 :: b1 :: b2 :: more, j, hj, hf => by
      match j with
      | 0 => simp at hf
      | 1 => simp at hf
      | 2 => simp at hf
      | 3 => omega
      | j + 4 =>
          show (writeBits rest more).getD j 0 = rest.getD j 0
          apply writeBits_getD_beyond rest more j (by omega)
          simp only [List.length_cons] at hf
          omega
  | [r], b0 :: more, j, hj, hf => by
      match j with
      | 0 => simp at hf
      | 1 => cases more <;> rfl
      | 2 => cases more <;> rfl
      | 3 => omega
      | j + 4 => cases more <;> rfl
  | [r, g], [b0], j, hj, hf => by
      match j with
      | 0 => simp at hf
      | 1 => rfl
      | 2 => rfl
      | 3 => omega
      | j + 4 => rfl
  | [r, g], b0 :: b1 :: more, j, hj, hf => by
      match j with
      | 0 => simp at hf
      | 1 => simp at hf
      | 2 => rfl
      | 3 => omega
      | j + 4 => rfl
  | [r, g, b], [b0], j, hj, hf => by
      match j with
      | 0 => simp at hf
      | 1 => rfl
      | 2 => rfl
      | 3 => omega
      | j + 4 => rfl
  | [r, g, b], [b0, b1], j, hj, hf => by
      match j with
      | 0 => simp at hf
      | 1 => simp at hf
      | 2 => rfl
      | 3 => omega
      | j + 4 => rfl
  | [r, g, b], b0 :: b1 :: b2 :: more, j, hj, hf => by
      match j with
      | 0 => simp at hf
      | 1 => simp at hf
      | 2 => simp at hf
      | 3 => omega
      | j + 4 => rfl

/-! ## Claim theorems: image codec frame effect and capacity -/

/-- C8: for every option set and accepted message, `hideData` returns a new
buffer with the carrier's width, height and byte length; every alpha
channel and every R/G/B channel whose frame-bit index lies beyond the
written frame is byte-for-byte identical to the input, and no byte of the
output differs from the input above its least-significant bit. (The model
is a pure function over an immutable list, mirroring the source's write
into a fresh `Uint8ClampedArray` copy; the caller's buffer is never
mutated.) -/
theorem C8_frame_effect (opts : StegoOptions) (img : StegoImageData)
    (message salt iv : String) (out : StegoImageData)
    (hok : hideData opts img message salt iv = .ok out) :
    out.width = img.width ∧ out.height = img.height ∧
    out.data.length = img.data.length ∧
    (∀ j, j % 4 = 3 → out.data.getD j 0 = img.data.getD j 0) ∧
    (∀ j, j % 4 < 3 → (hideFrame opts message salt iv).length ≤ j / 4 * 3 + j % 4 →
      out.data.getD j 0 = img.data.getD j 0) ∧
    (∀ j, out.data.getD j 0 / 2 = img.data.getD j 0 / 2) := by
  unfold hideData at hok
  split at hok
  · exact absurd hok (by simp)
  · injection hok with hok
    subst hok
    refine ⟨rfl, rfl, writeBits_length _ _, ?_, ?_, ?_⟩
    · intro j hj
      exact writeBits_getD_alpha _ _ j hj
    · intro j hj hf
      exact writeBits_getD_beyond _ _ j hj hf
    · intro j
      exact writeBits_getD_div2 _ _ j

/-- C8 (witness): the frame effect evaluated on a concrete 11-pixel buffer
of bytes 7 with the empty message — the 64 header bits all clear every
written LSB, alpha bytes stay 7. -/
theorem C8_witness :
    hideData ⟨none, false⟩ ⟨List.replicate 44 7, 11, 1⟩ "" "" "" =
      .ok ⟨(List.replicate 11 [6, 6, 6, 7]).flatten, 11, 1⟩ ∧
    ((List.replicate 11 ([6, 6, 6, 7] : List Nat)).flatten.getD 3 0 =
      (List.replicate 44 (7 : Nat)).getD 3 0 ∧
     (List.replicate 11 ([6, 6, 6, 7] : List Nat)).flatten.getD 0 0 / 2 =
      (List.replicate 44 (7 : Nat)).getD 0 0 / 2) := by
  have hok : hideData ⟨none, false⟩ ⟨List.replicate 44 7, 11, 1⟩ "" "" "" =
      .ok ⟨(List.replicate 11 [6, 6, 6, 7]).flatten, 11, 1⟩ := by decide
  have h := C8_frame_effect ⟨none, false⟩ ⟨List.replicate 44 7, 11, 1⟩ "" "" ""
    ⟨(List.replicate 11 [6, 6, 6, 7]).flatten, 11, 1⟩ hok
  exact ⟨hok, h.2.2.2.1 3 (by decide), h.2.2.2.2.2 0⟩

theorem stringToBinary_replicate_a (n : Nat) :
    (stringToBinary (String.mk (List.replicate n 'a'))).length = 8 * n := by
  have hbytes : utf8Bytes (String.mk (List.replicate n 'a')) = List.replicate n 97 := by
    show (List.replicate n 'a').flatMap utf8EncodeChar = List.replicate n 97
    induction n with
    | zero => rfl
    | succ n ih =>
        rw [List.replicate_succ, List.flatMap_cons, ih, List.replicate_succ]
        rfl
  unfold stringToBinary
  rw [hbytes, flatMap_byteToBits8_length _ (by
    intro b hb
    rw [List.eq_of_mem_replicate hb]
    norm_num)]
  simp

/-- C4: `getMaxCapacity` is exactly
`floor((width * height * 3 - headerBits) / 8)` with
`headerBits = 32 + (16 if checksum else 0)`; on a 100×100 RGBA image with
checksum disabled and no password, `hideData` accepts a message of exactly
3746 bytes and raises the capacity error — naming the 3746-byte limit and
the 3747-byte requirement — for one more byte. -/
theorem C4_capacity_boundary :
    (∀ (opts : StegoOptions) (img : StegoImageData),
      getMaxCapacity opts img =
        Int.fdiv ((img.width * img.height * 3 : Int) -
          (32 + if opts.checksum then 16 else 0)) 8) ∧
    (hideData ⟨none, false⟩ ⟨List.replicate 40000 0, 100, 100⟩
      (String.mk (List.replicate 3746 'a')) "" "").isOk = true ∧
    hideData ⟨none, false⟩ ⟨List.replicate 40000 0, 100, 100⟩
      (String.mk (List.replicate 3747 'a')) "" "" =
      .error (.capacityExceeded 3746 3747) := by
  have hcap : getMaxCapacity ⟨none, false⟩ ⟨List.replicate 40000 0, 100, 100⟩ = 3746 := by
    decide
  have htotal : ∀ n, hideTotalDataSize ⟨none, false⟩
      (String.mk (List.replicate n 'a')) "" "" = n := by
    intro n
    show (stringToBinary "").length / 8 +
      (stringToBinary (String.mk (List.replicate n 'a'))).length / 8 + 0 = n
    rw [stringToBinary_replicate_a]
    show 0 + 8 * n / 8 + 0 = n
    omega
  refine ⟨fun opts img => rfl, ?_, ?_⟩
  · unfold hideData
    rw [if_neg (by
      rw [htotal 3746, hcap]
      decide)]
    rfl
  · unfold hideData
    rw [if_pos (by
      rw [htotal 3747, hcap]
      decide)]
    rw [htotal 3747, hcap]
    norm_num

/-! ## Lemmas: image round trip -/

theorem parseBin_replicate_false (k : Nat) : parseBin (List.replicate k false) = 0 := by
  have := foldl_parseBinStep_replicate_false k 0
  simpa [parseBin] using this

theorem pad32_natToBin_zero : padStartB 32 (natToBin 0) = List.replicate 32 false := by decide

/-- `binaryToString` inverts `stringToBinary` on every string. -/
theorem binaryToString_stringToBinary (s : String) : binaryToString (stringToBinary s) = s := by
  unfold binaryToString stringToBinary
  rw [bitsToBytes_flatMap_byteToBits8 _ (utf8Bytes_lt s), utf8DecodeBytes_utf8Bytes]

theorem flatMap_pair_length {α β : Type} (l : List α) (f g : α → β) :
    (l.flatMap fun x => [f x, g x]).length = 2 * l.length := by
  induction l with
  | nil => rfl
  | cons x xs ih =>
      rw [List.flatMap_cons, List.length_append, ih, List.length_cons]
      simp
      ring

theorem sha256Digest_length (msg : List Nat) : (sha256Digest msg).length = 32 := by
  unfold sha256Digest wordBytesBE
  simp

theorem sha256HexChars_length (data : String) : (sha256HexChars data).length = 64 := by
  unfold sha256HexChars
  rw [flatMap_pair_length, sha256Digest_length]

theorem hexDigitChar_ascii (n : Nat) : (hexDigitChar n).toNat < 128 := by
  unfold hexDigitChar
  have hall : ∀ i, i < 16 → (hexChars.getD i '0').toNat < 128 := by decide
  exact hall (n % 16) (Nat.mod_lt _ (by norm_num))

theorem sha256HexChars_ascii (data : String) :
    ∀ c ∈ sha256HexChars data, c.toNat < 128 := by
  intro c hc
  unfold sha256HexChars at hc
  obtain ⟨b, _, hcb⟩ := List.mem_flatMap.mp hc
  simp only [List.mem_cons, List.mem_singleton, List.not_mem_nil, or_false] at hcb
  rcases hcb with hcb | hcb <;> (rw [hcb]; exact hexDigitChar_ascii _)

theorem calculateChecksum_length (data : String) : (calculateChecksum data).length = 8 := by
  show ((sha256HexChars data).take 8).length = 8
  rw [List.length_take, sha256HexChars_length]
  rfl

theorem utf8Bytes_ascii_string (cs : List Char) (h : ∀ c ∈ cs, c.toNat < 128) :
    (utf8Bytes (String.mk cs)).length = cs.length := by
  show (cs.flatMap utf8EncodeChar).length = cs.length
  induction cs with
  | nil => rfl
  | cons c cs ih =>
      have hc : c.toNat < 128 := h c (List.mem_cons_self _ _)
      have henc : utf8EncodeChar c = [c.toNat] := by
        unfold utf8EncodeChar encodeCodePoint
        rw [if_pos (by omega)]
      rw [List.flatMap_cons, henc, List.length_append,
        ih fun x hx => h x (List.mem_cons_of_mem _ hx)]
      simp
      omega

theorem stringToBinary_checksum_length (data : String) :
    (stringToBinary (calculateChecksum data)).length = 64 := by
  unfold stringToBinary
  rw [flatMap_byteToBits8_length _ (utf8Bytes_lt _)]
  have h2 : (utf8Bytes (calculateChecksum data)).length = 8 := by
    have := utf8Bytes_ascii_string ((sha256HexChars data).take 8)
      (fun c hc => sha256HexChars_ascii data c (List.mem_of_mem_take hc))
    rw [List.length_take, sha256HexChars_length] at this
    exact this
  rw [h2]

theorem stringToBinary_empty : stringToBinary "" = [] := rfl

theorem getMaxCapacity_nonneg_of_le {opts : StegoOptions} {img : StegoImageData} (k : Int)
    (hk : 0 ≤ k) (h : k ≤ getMaxCapacity opts img) : 0 ≤ getMaxCapacity opts img :=
  le_trans hk h

/-- C5 (counterexample): on a 1×1 image the conservative capacity is
negative, so `hideData` with the empty message raises
`CapacityExceededError` instead of embedding: the claim fails for small
carriers (and, with a password, the empty message is AES-expanded to a
non-empty ciphertext, leaving the claimed zero-length path entirely). -/
theorem C5_counterexample :
    hideData ⟨none, false⟩ ⟨[0, 0, 0, 0], 1, 1⟩ "" "" "" =
      .error (.capacityExceeded (-4) 0) := by decide

/-- C5 (amended): with no password configured (any checksum setting), every
successful `hideData` of the empty message followed by `extractData` —
with the same checksum setting and an arbitrary configured password —
returns the empty string: a declared message length of 0 returns
immediately, before any checksum verification, and the empty encryption
metadata skips decryption whatever password the extracting side holds. -/
theorem C5_empty_message (cs : Bool) (data : List Nat) (w h : Nat) (salt iv : String)
    (pwx : Option String) (out : StegoImageData)
    (h4 : data.length = 4 * (w * h))
    (hok : hideData ⟨none, cs⟩ ⟨data, w, h⟩ "" salt iv = .ok out) :
    extractData ⟨pwx, cs⟩ out = .ok "" := by
  unfold hideData at hok
  split at hok
  · exact absurd hok (by simp)
  · next hcapn =>
      injection hok with hok
      subst hok
      have htot : hideTotalDataSize ⟨none, cs⟩ "" salt iv = if cs = true then 8 else 0 := by
        unfold hideTotalDataSize
        simp only [hasPassword, Bool.false_eq_true, if_false, stringToBinary_empty,
          List.length_nil, Nat.zero_div, Nat.zero_add, Nat.add_zero]
        cases cs <;> simp [calculateChecksum_length]
      have hcap : (0:Int) ≤ getMaxCapacity ⟨none, cs⟩ ⟨data, w, h⟩ := by
        rw [htot] at hcapn
        push_neg at hcapn
        refine le_trans ?_ hcapn
        cases cs <;> norm_num
      have hwh : 32 + (if cs = true then 16 else 0) ≤ 3 * (w * h) := by
        unfold getMaxCapacity at hcap
        simp only at hcap
        rw [Int.fdiv_eq_ediv _ (by norm_num)] at hcap
        rw [Int.le_ediv_iff_mul_le (by norm_num)] at hcap
        cases cs <;> (simp at hcap ⊢; omega)
      have hframe : hideFrame ⟨none, cs⟩ "" salt iv = List.replicate 64 false ++
          (if cs = true then stringToBinary (calculateChecksum "") else []) := by
        unfold hideFrame
        simp only [hasPassword, Bool.false_eq_true, if_false, stringToBinary_empty,
          List.length_nil, Nat.zero_div, pad32_natToBin_zero, List.append_nil,
          List.nil_append]
        rw [← List.replicate_add]
        cases cs <;> norm_num
      rw [hframe]
      generalize hB : (if cs = true then stringToBinary (calculateChecksum "") else []) = csb
      have hcsblen : csb.length = if cs = true then 64 else 0 := by
        rw [← hB]
        cases cs <;> simp [stringToBinary_checksum_length]
      have h4w : (writeBits data (List.replicate 64 false ++ csb)).length % 4 = 0 := by
        rw [writeBits_length, h4]
        omega
      have hdl4 : data.length / 4 = w * h := by omega
      have hS0 := lsbStream_writeBits data (List.replicate 64 false ++ csb) (by rw [h4]; omega)
  -- name the written-prefix length
      rw [hdl4] at hS0
      have hfrlen : (List.replicate 64 false ++ csb).length = 64 + csb.length := by
        rw [List.length_append, List.length_replicate]
      rw [hfrlen] at hS0
      set m := min (64 + csb.length) (3 * (w * h)) with hmdef
      have hm32 : 32 ≤ m := by
        rw [hmdef]
        cases cs <;> (rw [hcsblen]; simp at hwh ⊢; omega)
      have hpre : ∀ k, k ≤ 64 →
          (lsbStream (writeBits data (List.replicate 64 false ++ csb))).take k =
            List.replicate (min k m) false := by
        intro k hk
        rw [hS0]
        by_cases hkm : k ≤ m
        · rw [List.take_append_of_le_length (by
            rw [List.length_take, List.length_append, List.length_replicate]
            omega)]
          rw [List.take_take]
          rw [List.take_append_of_le_length (by simp; omega)]
          rw [List.take_replicate]
          have : min (min k m) 64 = min k m := by omega
          rw [this]
        · have hdrop : (lsbStream data).drop m = [] := by
            apply List.drop_eq_nil_of_le
            rw [lsbStream_length data (by rw [h4]; omega), hdl4]
            omega
          rw [hdrop, List.append_nil, List.take_of_length_le (by
            rw [List.length_take, List.length_append, List.length_replicate]
            omega)]
          have hminkm : min k m = m := by omega
          rw [hminkm]
          rw [List.take_append_of_le_length (by simp; omega), List.take_replicate]
          have : min m 64 = m := by omega
          rw [this]
      simp only [extractData]
      have hb1 : readSegment (writeBits data (List.replicate 64 false ++ csb)) 0 32 =
          List.replicate 32 false := by
        rw [readSegment_eq _ h4w]
        simp only [Nat.sub_zero, List.drop_zero]
        rw [hpre 32 (by omega)]
        have : min 32 m = 32 := by omega
        rw [this]
      rw [hb1, parseBin_replicate_false]
      simp only [List.length_replicate, Nat.mul_zero, Nat.zero_mul, Nat.add_zero]
      have hs2 : readSegment (writeBits data (List.replicate 64 false ++ csb)) 32 32 = [] := by
        rw [readSegment_eq _ h4w]
        simp
      rw [hs2, List.append_nil]
      simp only [List.length_replicate]
      have hs3 : readSegment (writeBits data (List.replicate 64 false ++ csb)) 32 (32 + 32) =
          List.replicate (min 64 m - 32) false := by
        rw [readSegment_eq _ h4w]
        have h1 : 32 + 32 - 32 = 32 := rfl
        rw [h1, List.take_drop]
        have h2 : (32:Nat) + 32 = 64 := rfl
        rw [h2, hpre 64 (by omega), List.drop_replicate]
      rw [hs3]
      rw [List.drop_left' (by simp : (List.replicate 32 false).length = 32)]
      rw [List.take_replicate, parseBin_replicate_false]
      rw [if_neg (by
        push_neg
        constructor
        · norm_num
        · show (0:Int) ≤ _
          exact hcap)]
      rw [if_pos rfl]

/-- C5 (witness): the empty-message round trip on a concrete 11-pixel
buffer, extracting with an unrelated password configured. -/
theorem C5_witness :
    extractData ⟨some "pw", false⟩ ⟨List.replicate 44 0, 11, 1⟩ = .ok "" :=
  C5_empty_message false (List.replicate 44 0) 11 1 "" "" (some "pw")
    ⟨List.replicate 44 0, 11, 1⟩ (by decide) (by decide)

set_option maxRecDepth 4000 in
/-- C1 (counterexample): "within capacity as reported by getMaxCapacity" is
not sufficient for the round trip. On an 8×4 zero image with checksum off
and no password, `getMaxCapacity` reports 8 bytes (it reserves only 32
header bits), yet the real frame spends 64 bits on headers; hiding the
8-byte message "AAAAAAAA" succeeds but the frame is silently truncated and
extraction returns only "AAAA". -/
theorem C1_counterexample :
    (hideData ⟨none, false⟩ ⟨List.replicate 128 0, 8, 4⟩ "AAAAAAAA" "" "").bind
        (extractData ⟨none, false⟩) = .ok "AAAA" ∧ "AAAA" ≠ "AAAAAAAA" := by
  constructor
  · decide
  · decide

/-- C1 (amended): with no password configured on the hiding side and any
checksum setting, whenever the full frame actually fits — 64 header bits,
plus 64 checksum bits if enabled, plus 8 bits per UTF-8 byte of the
message, all within the 3·w·h usable LSB slots — and the message is
shorter than 2^32 bytes, `extractData` (same checksum setting, any
configured password: decryption is skipped because the stored encryption
metadata is empty) recovers exactly the hidden message from the buffer
produced by a successful `hideData`. -/
theorem C1_image_roundtrip (cs : Bool) (M : String) (data : List Nat) (w h : Nat)
    (salt iv : String) (pwx : Option String) (out : StegoImageData)
    (h4 : data.length = 4 * (w * h))
    (hL : (utf8Bytes M).length < 2 ^ 32)
    (hfit : 64 + (if cs = true then 64 else 0) + 8 * (utf8Bytes M).length ≤ 3 * (w * h))
    (hok : hideData ⟨none, cs⟩ ⟨data, w, h⟩ M salt iv = .ok out) :
    extractData ⟨pwx, cs⟩ out = .ok M := by
  unfold hideData at hok
  split at hok
  · exact absurd hok (by simp)
  · injection hok with hok
    subst hok
    have hsbl : (stringToBinary M).length = 8 * (utf8Bytes M).length := by
      unfold stringToBinary
      exact flatMap_byteToBits8_length _ (utf8Bytes_lt M)
    have hframe : hideFrame ⟨none, cs⟩ M salt iv =
        List.replicate 32 false ++ (padStartB 32 (natToBin (utf8Bytes M).length) ++
          ((if cs = true then stringToBinary (calculateChecksum M) else []) ++
            stringToBinary M)) := by
      unfold hideFrame
      simp only [hasPassword, Bool.false_eq_true, if_false, stringToBinary_empty,
        List.length_nil, Nat.zero_div, pad32_natToBin_zero, List.nil_append]
      rw [hsbl, Nat.mul_div_cancel_left _ (by norm_num : 0 < 8)]
      cases cs <;> simp
    rw [hframe]
    generalize hlB : padStartB 32 (natToBin (utf8Bytes M).length) = lenB
    generalize hcB : (if cs = true then stringToBinary (calculateChecksum M) else []) = csb
    generalize hmB : stringToBinary M = msgB
    have hlenB : lenB.length = 32 := by
      rw [← hlB]
      exact padStartB_length 32 _ (natToBin_length 32 _ hL (by norm_num) (by norm_num))
    have hcsb : csb.length = if cs = true then 64 else 0 := by
      rw [← hcB]
      cases cs <;> simp [stringToBinary_checksum_length]
    have hmsgB : msgB.length = 8 * (utf8Bytes M).length := by rw [← hmB]; exact hsbl
    have h4w : (writeBits data (List.replicate 32 false ++ (lenB ++ (csb ++ msgB)))).length % 4
        = 0 := by
      rw [writeBits_length, h4]
      omega
    have hdl4 : data.length / 4 = w * h := by omega
    have hS0 := lsbStream_writeBits data (List.replicate 32 false ++ (lenB ++ (csb ++ msgB)))
      (by rw [h4]; omega)
    rw [hdl4] at hS0
    have hFlen : (List.replicate 32 false ++ (lenB ++ (csb ++ msgB))).length =
        64 + csb.length + 8 * (utf8Bytes M).length := by
      simp only [List.length_append, List.length_replicate, hlenB, hmsgB]
      omega
    have hfit2 : 64 + csb.length + 8 * (utf8Bytes M).length ≤ 3 * (w * h) := by
      rw [hcsb]
      cases cs
      · simp only [Bool.false_eq_true, if_false] at hfit ⊢
        omega
      · simp only [if_true] at hfit ⊢
        omega
    have hmin : min (List.replicate 32 false ++ (lenB ++ (csb ++ msgB))).length (3 * (w * h)) =
        (List.replicate 32 false ++ (lenB ++ (csb ++ msgB))).length := by
      rw [hFlen]
      omega
    rw [hmin, List.take_length] at hS0
    set rest := (lsbStream data).drop
      (List.replicate 32 false ++ (lenB ++ (csb ++ msgB))).length with hrestdef
    rw [List.append_assoc, List.append_assoc, List.append_assoc] at hS0
    -- hS0 : lsbStream W = replicate 32 false ++ (lenB ++ (csb ++ (msgB ++ rest)))
    simp only [extractData]
    have hb1 : readSegment (writeBits data (List.replicate 32 false ++ (lenB ++ (csb ++ msgB))))
        0 32 = List.replicate 32 false := by
      rw [readSegment_eq _ h4w]
      simp only [Nat.sub_zero, List.drop_zero]
      rw [hS0]
      exact List.take_left' (by simp)
    rw [hb1, parseBin_replicate_false]
    simp only [List.length_replicate, Nat.mul_zero, Nat.zero_mul, Nat.add_zero]
    have hs2 : readSegment (writeBits data (List.replicate 32 false ++ (lenB ++ (csb ++ msgB))))
        32 32 = [] := by
      rw [readSegment_eq _ h4w]
      simp
    rw [hs2, List.append_nil]
    simp only [List.length_replicate]
    have hs3 : readSegment (writeBits data (List.replicate 32 false ++ (lenB ++ (csb ++ msgB))))
        32 (32 + 32) = lenB := by
      rw [readSegment_eq _ h4w]
      have h1 : 32 + 32 - 32 = 32 := rfl
      rw [h1, hS0]
      rw [List.drop_left' (by simp : (List.replicate 32 false).length = 32)]
      exact List.take_left' hlenB
    rw [hs3]
    rw [List.drop_left' (by simp : (List.replicate 32 false).length = 32)]
    have htakelenB : lenB.take 32 = lenB := by
      rw [← hlenB]
      simp
    rw [htakelenB]
    have hparse : parseBin lenB = (utf8Bytes M).length := by
      rw [← hlB]
      exact parseBin_padStartB_natToBin 32 _ (lt_trans hL (by norm_num))
    rw [hparse]
    have hcapL : ∀ d : List Nat,
        ((utf8Bytes M).length : Int) ≤ getMaxCapacity ⟨pwx, cs⟩ ⟨d, w, h⟩ := by
      intro d
      unfold getMaxCapacity
      simp only
      rw [Int.fdiv_eq_ediv _ (by norm_num), Int.le_ediv_iff_mul_le (by norm_num)]
      have hkey : 8 * (utf8Bytes M).length + (32 + if cs = true then 16 else 0) ≤
          3 * (w * h) := by
        cases cs
        · simp only [Bool.false_eq_true, if_false] at hfit ⊢
          omega
        · simp only [if_true] at hfit ⊢
          omega
      rw [le_sub_iff_add_le]
      have hc := Int.ofNat_le.mpr hkey
      push_cast at hc ⊢
      linarith
    rw [if_neg (by
      push_neg
      refine ⟨Int.natCast_nonneg _, ?_⟩
      exact hcapL _)]
    by_cases hL0 : (utf8Bytes M).length = 0
    · rw [if_pos hL0]
      rw [utf8Bytes_length_eq_zero M hL0]
    · rw [if_neg hL0]
      have hbs0 : binaryToString [] = "" := rfl
      simp only [List.take_zero, hbs0, ne_eq, not_true_eq_false, and_false, if_false]
      simp only [List.length_append, List.length_replicate, hlenB]
      have hs4 : readSegment (writeBits data (List.replicate 32 false ++ (lenB ++ (csb ++ msgB))))
          (32 + 32) ((32 + 32 + if cs = true then 64 else 0) + (utf8Bytes M).length * 8) =
          csb ++ msgB := by
        rw [readSegment_eq _ h4w, hS0]
        rw [← List.append_assoc]
        rw [List.drop_left' (by simp [hlenB] : (List.replicate 32 false ++ lenB).length = 32 + 32)]
        have harith : (32 + 32 + if cs = true then 64 else 0) + (utf8Bytes M).length * 8 -
            (32 + 32) = csb.length + msgB.length := by
          rw [hcsb, hmsgB]
          cases cs <;> simp <;> omega
        rw [harith, ← List.append_assoc]
        exact List.take_left' (by simp)
      rw [hs4]
      simp only [List.append_assoc]
      have hcsdrop : List.drop (32 + 32)
          (List.replicate 32 false ++ (lenB ++ (csb ++ msgB))) = csb ++ msgB := by
        rw [← List.append_assoc]
        exact List.drop_left' (by simp [hlenB])
      have hmsgdrop : List.drop (32 + 32 + (if cs = true then 64 else 0))
          (List.replicate 32 false ++ (lenB ++ (csb ++ msgB))) = msgB := by
        rw [← List.drop_drop, hcsdrop]
        exact List.drop_left' hcsb
      rw [hmsgdrop, hcsdrop]
      have hbm : binaryToString msgB = M := by
        rw [← hmB]
        exact binaryToString_stringToBinary M
      rw [hbm]
      cases cs
      · simp only [Bool.false_eq_true, if_false]
      · simp only [if_true]
        simp only [if_true] at hcB
        rw [← hcB, List.take_left' (stringToBinary_checksum_length M),
          binaryToString_stringToBinary]
        rw [if_neg (by simp)]

set_option maxRecDepth 4000 in
/-- C1 (witness): the round trip at a concrete 24×1 zero image hiding "A"
(72 frame bits in 72 slots), extracted with an unrelated password. -/
theorem C1_witness :
    extractData ⟨some "k", false⟩
      ⟨List.replicate 84 0 ++ [1, 0, 1, 0, 0, 0, 0, 0, 0, 0, 1, 0], 24, 1⟩ = .ok "A" :=
  C1_image_roundtrip false "A" (List.replicate 96 0) 24 1 "" "" (some "k")
    ⟨List.replicate 84 0 ++ [1, 0, 1, 0, 0, 0, 0, 0, 0, 0, 1, 0], 24, 1⟩
    (by decide) (by decide) (by decide) (by decide)
